import Mathlib

/-!
Verification development for the knowledge/RAG core of the ShadowPrompt
repository (`src/shadow_prompt/src/knowledge/rag.rs`).

Modelling conventions:
* `f32` values are modelled as `ℚ` (exact arithmetic).  `f32::sqrt` is not
  rational, so it is threaded through as an explicit parameter
  `sqrtf : ℚ → ℚ`; theorems that depend on its behaviour state the needed
  facts (`sqrtf 0 = 0`, `sqrtf x = 0 ↔ x = 0` on nonnegative inputs) as
  hypotheses, which hold for the IEEE square root on nonnegative finite
  inputs.
* The filesystem is modelled by an explicit list of glob scan results
  (`ScanEntry`): either an errored glob entry (logged and skipped by the
  code) or a `FileInfo` carrying the path, the result of reading the
  modification time (`none` models a failing `fs::metadata`/`modified()`
  call, which the code propagates with `?`) and the result of
  `fs::read_to_string` (`none` models a read error, which the code turns
  into `""` via `unwrap_or_default`).
* The persisted snapshot file and the in-memory `cached_index` are the two
  components of `RagState`.  A missing or unparseable snapshot file is
  modelled as `none` (the code treats both as "no previous index").
* The embedding provider is a function from the batch of texts to
  `Except String` of the vectors; `uuid::Uuid::new_v4` is modelled by an
  explicit stream `ids : Nat → String` indexed by the position in the
  to-embed batch.
* `tokio::sync::RwLock` writes are whole-value replacements; state is
  passed explicitly, so each operation returns its result together with
  the updated `RagState`.
-/

namespace Rag

/-- Model of `Document` (rag.rs lines 12-19). -/
structure Document where
  id : String
  path : String
  content : String
  embedding : List ℚ
  last_modified : Nat
deriving DecidableEq

/-- Model of `RagIndex` (rag.rs lines 21-24). -/
structure RagIndex where
  documents : List Document
deriving DecidableEq

/-- The RAG-relevant configuration fields (config.rs `RagConfig`); the two
path fields are abstracted into the `root_exists` flag and the scan-entry
list passed to `ingest`. -/
structure RagConfig where
  enabled : Bool
  max_results : Nat
  min_score : ℚ
deriving DecidableEq

/-- Snapshot file (`disk`, `none` = absent or unparseable) and the
`cached_index` RwLock contents (`cache`). -/
structure RagState where
  disk : Option RagIndex
  cache : Option RagIndex
deriving DecidableEq

/-- Model of `cosine_similarity` (rag.rs lines 298-308): dot product over
the zipped vectors, norms via `sqrtf` of the sums of squares, the zero-norm
guard, then the division. -/
def cosine_similarity (sqrtf : ℚ → ℚ) (a b : List ℚ) : ℚ :=
  let dot_product : ℚ := ((a.zip b).map fun p => p.1 * p.2).sum
  let norm_a : ℚ := sqrtf (a.map fun x => x * x).sum
  let norm_b : ℚ := sqrtf (b.map fun x => x * x).sum
  if norm_a = 0 ∨ norm_b = 0 then 0
  else dot_product / (norm_a * norm_b)

/-- The comparator passed to `sort_by` in `query` (rag.rs line 285):
`b.0.partial_cmp(&a.0).unwrap_or(Equal)` sorts descending by score; as a
boolean "may precede" relation on `ℚ` (no NaN) it is `b.1 ≤ a.1`. -/
def descLE (a b : ℚ × Document) : Bool := decide (b.1 ≤ a.1)

/-- Scoring step of `query` (rag.rs lines 279-282): each document is paired
with its cosine similarity to the query vector. -/
def scoreDocs (sqrtf : ℚ → ℚ) (query_vec : List ℚ) (docs : List Document) :
    List (ℚ × Document) :=
  docs.map fun doc => (cosine_similarity sqrtf query_vec doc.embedding, doc)

/-- Ranking pipeline of `query` (rag.rs lines 279-292): score, stable-sort
descending (Rust `sort_by` is stable; modelled by `List.mergeSort`), filter
by `min_score`, truncate to `max_results`.  Kept separate from the final
projection to contents so that score-level properties can be stated. -/
def rankDocs (sqrtf : ℚ → ℚ) (query_vec : List ℚ) (min_score : ℚ)
    (max_results : Nat) (docs : List Document) : List (ℚ × Document) :=
  let scores := scoreDocs sqrtf query_vec docs
  let sorted := scores.mergeSort descLE
  (sorted.filter fun p => decide (min_score ≤ p.1)).take max_results

/-- Result list of `query` on a cached index (rag.rs lines 279-294). -/
def queryDocs (sqrtf : ℚ → ℚ) (query_vec : List ℚ) (min_score : ℚ)
    (max_results : Nat) (docs : List Document) : List String :=
  (rankDocs sqrtf query_vec min_score max_results docs).map fun p => p.2.content

/-- Model of `RagSystem::query` (rag.rs lines 215-295).  `embed_query`
models `embedding_model.embed(vec![text])[0]`; the lazy load from disk
(lines 237-261) fills the cache only when it is empty, and a missing or
unparseable snapshot leaves the cache as it was. -/
def query (cfg : RagConfig) (is_operational : Bool) (has_model : Bool)
    (sqrtf : ℚ → ℚ) (embed_query : Except String (List ℚ))
    (st : RagState) : Except String (List String) × RagState :=
  if !cfg.enabled then (.ok [], st)
  else if !is_operational then (.ok [], st)
  else if !has_model then (.ok [], st)
  else
    let st' : RagState :=
      if st.cache.isNone then
        match st.disk with
        | some idx => { st with cache := some idx }
        | none => st
      else st
    match st'.cache with
    | none => (.ok [], st')
    | some index =>
      if index.documents.isEmpty then (.ok [], st')
      else
        match embed_query with
        | .error e => (.error e, st')
        | .ok query_vec =>
          (.ok (queryDocs sqrtf query_vec cfg.min_score cfg.max_results
            index.documents), st')

/-- The ordering demanded by the spec's ranking contract, written on
documents annotated with their original position: similarity descending,
ties broken by the original document order. -/
def specLE (a b : Nat × (ℚ × Document)) : Bool :=
  if a.2.1 = b.2.1 then decide (a.1 ≤ b.1) else decide (b.2.1 < a.2.1)

/-- The query result as the spec words it: score every document (keeping
its original position), filter to those with similarity at least
`min_score`, sort by similarity descending with ties in original order,
and return at most `max_results` document contents. -/
def querySpecDocs (sqrtf : ℚ → ℚ) (query_vec : List ℚ) (min_score : ℚ)
    (max_results : Nat) (docs : List Document) : List String :=
  let scored := (scoreDocs sqrtf query_vec docs).enum
  let kept := scored.filter fun x => decide (min_score ≤ x.2.1)
  let sorted := kept.mergeSort specLE
  (sorted.take max_results).map fun x => x.2.2.content

/-- Model of the `content.trim().is_empty()` check (rag.rs line 125): the
trimmed string is empty exactly when every character is whitespace. -/
def trimEmpty (s : String) : Bool := s.data.all fun c => c.isWhitespace

/-- One glob scan result: an errored entry (logged and skipped, rag.rs line
130) or a file. -/
structure FileInfo where
  path : String
  modified : Option Nat
  content : Option String
deriving DecidableEq

inductive ScanEntry where
  | err : ScanEntry
  | file : FileInfo → ScanEntry
deriving DecidableEq

/-- Model of the `HashMap<String, Document>` built from the previous index
(rag.rs lines 76-86): insertion keyed by `doc.path`, later documents
overwriting earlier ones. -/
def lookupDoc (docs : List Document) (p : String) : Option Document :=
  docs.foldl (fun acc d => if d.path = p then some d else acc) none

/-- The scan loop of `get_files_to_embed` (rag.rs lines 102-133), folding
over the concatenated glob results with the `found_paths` dedup set and the
two accumulators.  A `none` modification time aborts the whole scan (the
code uses `?` on `fs::metadata`/`modified()`); an unreadable file yields
content `""` (`unwrap_or_default`) and is then skipped by the emptiness
check, exactly like a whitespace-only file. -/
def scanLoop (existing_docs : String → Option Document) :
    List ScanEntry → List String → List Document →
    List (String × String × Nat) →
    Except String (List Document × List (String × String × Nat))
  | [], _, final_docs, docs_to_embed => .ok (final_docs, docs_to_embed)
  | .err :: rest, found_paths, final_docs, docs_to_embed =>
    scanLoop existing_docs rest found_paths final_docs docs_to_embed
  | .file fi :: rest, found_paths, final_docs, docs_to_embed =>
    if fi.path ∈ found_paths then
      scanLoop existing_docs rest found_paths final_docs docs_to_embed
    else
      match fi.modified with
      | none => .error "failed to read file metadata"
      | some modified =>
        match existing_docs fi.path with
        | some existing_doc =>
          if existing_doc.last_modified = modified then
            scanLoop existing_docs rest (fi.path :: found_paths)
              (final_docs ++ [existing_doc]) docs_to_embed
          else
            let content := fi.content.getD ""
            if trimEmpty content then
              scanLoop existing_docs rest (fi.path :: found_paths)
                final_docs docs_to_embed
            else
              scanLoop existing_docs rest (fi.path :: found_paths)
                final_docs (docs_to_embed ++ [(fi.path, content, modified)])
        | none =>
          let content := fi.content.getD ""
          if trimEmpty content then
            scanLoop existing_docs rest (fi.path :: found_paths)
              final_docs docs_to_embed
          else
            scanLoop existing_docs rest (fi.path :: found_paths)
              final_docs (docs_to_embed ++ [(fi.path, content, modified)])

/-- Model of `RagSystem::get_files_to_embed` (rag.rs lines 70-136). -/
def get_files_to_embed (prev : Option RagIndex) (entries : List ScanEntry) :
    Except String (List Document × List (String × String × Nat)) :=
  let existing_docs : String → Option Document := fun p =>
    match prev with
    | some idx => lookupDoc idx.documents p
    | none => none
  scanLoop existing_docs entries [] [] []

/-- The embedding loop of `ingest` (rag.rs lines 180-189): iterate over the
returned embeddings, pairing embedding `i` with `docs_to_embed[i]` and a
fresh id.  (When the provider returns more vectors than texts the Rust code
panics on the index; a well-formed provider returns one vector per text.) -/
def embedDocs (ids : Nat → String) :
    Nat → List (String × String × Nat) → List (List ℚ) → List Document
  | _, _, [] => []
  | _, [], _ :: _ => []
  | i, (path, content, modified) :: ds, e :: es =>
    ⟨ids i, path, content, e, modified⟩ :: embedDocs ids (i + 1) ds es

/-- Model of `RagSystem::ingest` (rag.rs lines 138-213).  Directory
creation and `fs::write` are modelled as succeeding; a provider failure
propagates with `?` before the snapshot write and the cache update, so it
leaves the state untouched. -/
def ingest (cfg : RagConfig) (is_operational : Bool) (has_model : Bool)
    (root_exists : Bool) (entries : List ScanEntry)
    (provider : List String → Except String (List (List ℚ)))
    (ids : Nat → String) (st : RagState) : Except String Nat × RagState :=
  if !cfg.enabled || !is_operational then (.ok 0, st)
  else if !has_model then (.ok 0, st)
  else if !root_exists then (.ok 0, st)
  else
    match get_files_to_embed st.disk entries with
    | .error e => (.error e, st)
    | .ok (final_docs, docs_to_embed) =>
      if docs_to_embed.isEmpty && final_docs.isEmpty then (.ok 0, st)
      else if docs_to_embed.isEmpty then
        let index : RagIndex := ⟨final_docs⟩
        (.ok index.documents.length, { disk := some index, cache := some index })
      else
        let texts : List String := docs_to_embed.map fun t => t.2.1
        match provider texts with
        | .error e => (.error e, st)
        | .ok embeddings =>
          let index : RagIndex :=
            ⟨final_docs ++ embedDocs ids 0 docs_to_embed embeddings⟩
          (.ok index.documents.length, { disk := some index, cache := some index })

/-- The batches of document contents that `ingest` passes to the embedding
provider, read off its single call site (rag.rs lines 175-178): the
provider is reached only on the branch where `docs_to_embed` is non-empty,
and receives exactly the contents of `docs_to_embed`, once. -/
def ingestBatches (cfg : RagConfig) (is_operational : Bool)
    (has_model : Bool) (root_exists : Bool) (entries : List ScanEntry)
    (st : RagState) : List (List String) :=
  if !cfg.enabled || !is_operational then []
  else if !has_model then []
  else if !root_exists then []
  else
    match get_files_to_embed st.disk entries with
    | .error _ => []
    | .ok (final_docs, docs_to_embed) =>
      if docs_to_embed.isEmpty && final_docs.isEmpty then []
      else if docs_to_embed.isEmpty then []
      else [docs_to_embed.map fun t => t.2.1]

/-! ### Characterization of the scan loop

The fold in `scanLoop` is equivalent to (1) deduplicating the glob results
by path while dropping errored entries (`dedupFiles`), and then (2)
computing an independent per-file outcome (`fileOutcome`): reuse the
previous document, schedule the file for embedding, skip it, or abort on a
metadata error.  All reconciliation proofs go through this decomposition. -/

/-- First occurrence of each file path in the glob results, relative to an
already-seen path set; errored glob entries are dropped. -/
def dedupFiles : List ScanEntry → List String → List FileInfo
  | [], _ => []
  | .err :: rest, found_paths => dedupFiles rest found_paths
  | .file fi :: rest, found_paths =>
    if fi.path ∈ found_paths then dedupFiles rest found_paths
    else fi :: dedupFiles rest (fi.path :: found_paths)

/-- The per-file decision of the scan loop: `inl` = reuse of a previous
document, `inr` = (path, content, modified) scheduled for embedding,
`none` = skipped (unreadable or whitespace-only content). -/
def fileOutcome (existing_docs : String → Option Document) (fi : FileInfo) :
    Except String (Option (Document ⊕ (String × String × Nat))) :=
  match fi.modified with
  | none => .error "failed to read file metadata"
  | some modified =>
    match existing_docs fi.path with
    | some existing_doc =>
      if existing_doc.last_modified = modified then .ok (some (.inl existing_doc))
      else
        let content := fi.content.getD ""
        if trimEmpty content then .ok none
        else .ok (some (.inr (fi.path, content, modified)))
    | none =>
      let content := fi.content.getD ""
      if trimEmpty content then .ok none
      else .ok (some (.inr (fi.path, content, modified)))

def outcomesList (existing_docs : String → Option Document) :
    List FileInfo →
    Except String (List (Option (Document ⊕ (String × String × Nat))))
  | [] => .ok []
  | fi :: fs =>
    match fileOutcome existing_docs fi with
    | .error e => .error e
    | .ok o =>
      match outcomesList existing_docs fs with
      | .error e => .error e
      | .ok os => .ok (o :: os)

/-- Split a list of per-file outcomes into the reused documents and the
to-embed triples, in scan order. -/
def collectOutcomes :
    List (Option (Document ⊕ (String × String × Nat))) →
    List Document × List (String × String × Nat)
  | [] => ([], [])
  | some (.inl d) :: os => ((collectOutcomes os).1.cons d, (collectOutcomes os).2)
  | some (.inr t) :: os => ((collectOutcomes os).1, (collectOutcomes os).2.cons t)
  | none :: os => collectOutcomes os

/-- The `existing_docs` map that `get_files_to_embed` builds from the
previous snapshot. -/
def existingOf (prev : Option RagIndex) : String → Option Document :=
  fun p =>
    match prev with
    | some idx => lookupDoc idx.documents p
    | none => none

lemma scanLoop_char (existing_docs : String → Option Document) :
    ∀ (entries : List ScanEntry) (found_paths : List String)
      (fd : List Document) (dte : List (String × String × Nat)),
    scanLoop existing_docs entries found_paths fd dte =
      match outcomesList existing_docs (dedupFiles entries found_paths) with
      | .error e => .error e
      | .ok os =>
        .ok (fd ++ (collectOutcomes os).1, dte ++ (collectOutcomes os).2) := by
  intro entries
  induction entries with
  | nil => intro found fd dte; simp [scanLoop, dedupFiles, outcomesList, collectOutcomes]
  | cons e rest ih =>
    intro found fd dte
    cases e with
    | err =>
      simp only [scanLoop, dedupFiles]
      exact ih found fd dte
    | file fi =>
      by_cases hmem : fi.path ∈ found
      · simp only [scanLoop, dedupFiles, if_pos hmem]
        exact ih found fd dte
      · simp only [scanLoop, dedupFiles, if_neg hmem]
        cases hm : fi.modified with
        | none => simp [outcomesList, fileOutcome, hm]
        | some m =>
          cases hex : existing_docs fi.path with
          | some d =>
            by_cases hts : d.last_modified = m
            · simp only [hex, if_pos hts]
              rw [ih]
              simp only [outcomesList, fileOutcome, hm, hex, if_pos hts]
              cases houts : outcomesList existing_docs (dedupFiles rest (fi.path :: found)) with
              | error e => rfl
              | ok os => simp [collectOutcomes]
            · by_cases hct : trimEmpty (fi.content.getD "")
              · simp only [hex, if_neg hts, if_pos hct]
                rw [ih]
                simp only [outcomesList, fileOutcome, hm, hex, if_neg hts, if_pos hct]
                cases houts : outcomesList existing_docs (dedupFiles rest (fi.path :: found)) with
                | error e => rfl
                | ok os => simp [collectOutcomes]
              · simp only [hex, if_neg hts, if_neg hct]
                rw [ih]
                simp only [outcomesList, fileOutcome, hm, hex, if_neg hts, if_neg hct]
                cases houts : outcomesList existing_docs (dedupFiles rest (fi.path :: found)) with
                | error e => rfl
                | ok os => simp [collectOutcomes]
          | none =>
            by_cases hct : trimEmpty (fi.content.getD "")
            · simp only [hex, if_pos hct]
              rw [ih]
              simp only [outcomesList, fileOutcome, hm, hex, if_pos hct]
              cases houts : outcomesList existing_docs (dedupFiles rest (fi.path :: found)) with
              | error e => rfl
              | ok os => simp [collectOutcomes]
            · simp only [hex, if_neg hct]
              rw [ih]
              simp only [outcomesList, fileOutcome, hm, hex, if_neg hct]
              cases houts : outcomesList existing_docs (dedupFiles rest (fi.path :: found)) with
              | error e => rfl
              | ok os => simp [collectOutcomes]

/-- `get_files_to_embed` through the decomposition. -/
lemma get_files_to_embed_char (prev : Option RagIndex)
    (entries : List ScanEntry) :
    get_files_to_embed prev entries =
      match outcomesList (existingOf prev) (dedupFiles entries []) with
      | .error e => .error e
      | .ok os => .ok (collectOutcomes os) := by
  rw [get_files_to_embed]
  rw [scanLoop_char]
  have hfold : (fun p =>
      match prev with
      | some idx => lookupDoc idx.documents p
      | none => none) = existingOf prev := rfl
  rw [hfold]
  cases h : outcomesList (existingOf prev) (dedupFiles entries []) with
  | error e => simp [h]
  | ok os => simp [h]

/-! ### Support lemmas about the lookup map, dedup and outcomes -/

lemma lookupDoc_foldl_some (p : String) (d : Document) :
    ∀ (docs : List Document) (acc : Option Document),
    docs.foldl (fun a dd => if dd.path = p then some dd else a) acc = some d →
    acc = some d ∨ (d ∈ docs ∧ d.path = p) := by
  intro docs
  induction docs with
  | nil => intro acc h; exact Or.inl h
  | cons dd ds ih =>
    intro acc h
    rcases ih _ h with h' | h'
    · have h'' : (if dd.path = p then some dd else acc) = some d := h'
      by_cases hp : dd.path = p
      · rw [if_pos hp] at h''
        right
        obtain rfl : dd = d := Option.some.inj h''
        exact ⟨List.mem_cons_self _ _, hp⟩
      · rw [if_neg hp] at h''
        exact Or.inl h''
    · exact Or.inr ⟨List.mem_cons_of_mem _ h'.1, h'.2⟩

lemma lookupDoc_eq_some {docs : List Document} {p : String} {d : Document}
    (h : lookupDoc docs p = some d) : d ∈ docs ∧ d.path = p := by
  rcases lookupDoc_foldl_some p d docs none h with h' | h'
  · cases h'
  · exact h'

lemma lookupDoc_foldl_frozen (p : String) {docs : List Document}
    (h : ∀ dd ∈ docs, dd.path ≠ p) (acc : Option Document) :
    docs.foldl (fun a dd => if dd.path = p then some dd else a) acc = acc := by
  induction docs generalizing acc with
  | nil => rfl
  | cons dd ds ih =>
    have hdd : dd.path ≠ p := h dd (List.mem_cons_self _ _)
    simp only [List.foldl_cons, if_neg hdd]
    exact ih (fun x hx => h x (List.mem_cons_of_mem _ hx)) acc

lemma lookupDoc_eq_none {docs : List Document} {p : String}
    (h : ∀ dd ∈ docs, dd.path ≠ p) : lookupDoc docs p = none :=
  lookupDoc_foldl_frozen p h none

lemma lookupDoc_of_mem_nodup {docs : List Document} {d : Document}
    (hnd : (docs.map Document.path).Nodup) (hd : d ∈ docs) :
    lookupDoc docs d.path = some d := by
  induction docs with
  | nil => cases hd
  | cons dd ds ih =>
    simp only [List.map_cons, List.nodup_cons] at hnd
    by_cases hpd : dd.path = d.path
    · have hd_eq : d = dd := by
        rcases List.mem_cons.mp hd with h | h
        · exact h
        · exact absurd (hpd ▸ List.mem_map_of_mem Document.path h) hnd.1
      simp only [lookupDoc, List.foldl_cons, if_pos hpd]
      rw [lookupDoc_foldl_frozen]
      · rw [hd_eq]
      · intro x hx hxp
        exact hnd.1 (hpd.symm ▸ hxp ▸ List.mem_map_of_mem Document.path hx)
    · have hd' : d ∈ ds := by
        rcases List.mem_cons.mp hd with h | h
        · exact absurd (congrArg Document.path h.symm) hpd
        · exact h
      simp only [lookupDoc, List.foldl_cons, if_neg hpd]
      exact ih hnd.2 hd'

lemma existingOf_path {prev : Option RagIndex} {p : String} {d : Document}
    (h : existingOf prev p = some d) : d.path = p := by
  cases prev with
  | none => cases h
  | some idx => exact (lookupDoc_eq_some h).2

lemma existingOf_mem {prev : RagIndex} {p : String} {d : Document}
    (h : existingOf (some prev) p = some d) : d ∈ prev.documents :=
  (lookupDoc_eq_some h).1

lemma dedupFiles_path_mem {entries : List ScanEntry} :
    ∀ {found_paths : List String} {fi : FileInfo},
    fi ∈ dedupFiles entries found_paths →
    ScanEntry.file fi ∈ entries ∧ fi.path ∉ found_paths := by
  induction entries with
  | nil => intro found fi h; cases h
  | cons e rest ih =>
    intro found fi h
    cases e with
    | err =>
      have := ih h
      exact ⟨List.mem_cons_of_mem _ this.1, this.2⟩
    | file fj =>
      by_cases hmem : fj.path ∈ found
      · rw [dedupFiles, if_pos hmem] at h
        have := ih h
        exact ⟨List.mem_cons_of_mem _ this.1, this.2⟩
      · rw [dedupFiles, if_neg hmem] at h
        rcases List.mem_cons.mp h with rfl | h'
        · exact ⟨List.mem_cons_self _ _, hmem⟩
        · have := ih h'
          refine ⟨List.mem_cons_of_mem _ this.1, fun hc => this.2 ?_⟩
          exact List.mem_cons_of_mem _ hc

lemma dedupFiles_nodup (entries : List ScanEntry) :
    ∀ found_paths : List String,
    ((dedupFiles entries found_paths).map FileInfo.path).Nodup := by
  induction entries with
  | nil => intro found; simp [dedupFiles]
  | cons e rest ih =>
    intro found
    cases e with
    | err => exact ih found
    | file fj =>
      by_cases hmem : fj.path ∈ found
      · rw [dedupFiles, if_pos hmem]; exact ih found
      · rw [dedupFiles, if_neg hmem]
        simp only [List.map_cons, List.nodup_cons]
        refine ⟨fun hc => ?_, ih _⟩
        obtain ⟨fi, hfi, hp⟩ := List.mem_map.mp hc
        exact (dedupFiles_path_mem hfi).2 (hp ▸ List.mem_cons_self _ _)

lemma outcomesList_cons_ok {ex : String → Option Document} {fi : FileInfo}
    {fs : List FileInfo}
    {os : List (Option (Document ⊕ (String × String × Nat)))}
    (h : outcomesList ex (fi :: fs) = .ok os) :
    ∃ o os', fileOutcome ex fi = .ok o ∧ outcomesList ex fs = .ok os' ∧
      os = o :: os' := by
  rw [outcomesList] at h
  cases ho : fileOutcome ex fi with
  | error e => rw [ho] at h; cases h
  | ok o =>
    rw [ho] at h
    cases hos : outcomesList ex fs with
    | error e => rw [hos] at h; cases h
    | ok os' =>
      rw [hos] at h
      exact ⟨o, os', rfl, rfl, (Except.ok.inj h).symm⟩

lemma fileOutcome_inl {ex : String → Option Document} {fi : FileInfo}
    {d : Document} (h : fileOutcome ex fi = .ok (some (.inl d))) :
    fi.modified = some d.last_modified ∧ ex fi.path = some d := by
  rw [fileOutcome] at h
  cases hm : fi.modified with
  | none => simp [hm] at h
  | some m =>
    simp only [hm] at h
    cases hex : ex fi.path with
    | some dd =>
      simp only [hex] at h
      by_cases hts : dd.last_modified = m
      · simp only [if_pos hts] at h
        have hdd : dd = d := by simpa using h
        exact ⟨congrArg some (hdd ▸ hts).symm, congrArg some hdd⟩
      · simp only [if_neg hts] at h
        by_cases hct : trimEmpty (fi.content.getD "")
        · simp [hct] at h
        · simp [hct] at h
    | none =>
      simp only [hex] at h
      by_cases hct : trimEmpty (fi.content.getD "")
      · simp [hct] at h
      · simp [hct] at h

lemma fileOutcome_inr {ex : String → Option Document} {fi : FileInfo}
    {p c : String} {m : Nat}
    (h : fileOutcome ex fi = .ok (some (.inr (p, c, m)))) :
    p = fi.path ∧ c = fi.content.getD "" ∧ fi.modified = some m ∧
      trimEmpty c = false ∧
      ∀ dd, ex fi.path = some dd → dd.last_modified ≠ m := by
  rw [fileOutcome] at h
  cases hm : fi.modified with
  | none => simp [hm] at h
  | some m' =>
    simp only [hm] at h
    cases hex : ex fi.path with
    | some dd =>
      simp only [hex] at h
      by_cases hts : dd.last_modified = m'
      · simp [hts] at h
      · simp only [if_neg hts] at h
        by_cases hct : trimEmpty (fi.content.getD "")
        · simp [hct] at h
        · simp only [if_neg hct] at h
          obtain ⟨hp, hc, hm2⟩ : fi.path = p ∧ fi.content.getD "" = c ∧ m' = m := by
            simpa using h
          refine ⟨hp.symm, hc.symm, congrArg some hm2, ?_, ?_⟩
          · rw [← hc]; simpa using hct
          · intro x hx hxm
            have hxd : dd = x := Option.some.inj hx
            apply hts
            rw [hxd, hxm, hm2]
    | none =>
      simp only [hex] at h
      by_cases hct : trimEmpty (fi.content.getD "")
      · simp [hct] at h
      · simp only [if_neg hct] at h
        obtain ⟨hp, hc, hm2⟩ : fi.path = p ∧ fi.content.getD "" = c ∧ m' = m := by
          simpa using h
        refine ⟨hp.symm, hc.symm, congrArg some hm2, ?_, ?_⟩
        · rw [← hc]; simpa using hct
        · intro x hx
          cases hx

lemma fileOutcome_skip {ex : String → Option Document} {fi : FileInfo}
    (h : fileOutcome ex fi = .ok none) :
    ∃ m, fi.modified = some m ∧ trimEmpty (fi.content.getD "") = true ∧
      ∀ dd, ex fi.path = some dd → dd.last_modified ≠ m := by
  rw [fileOutcome] at h
  cases hm : fi.modified with
  | none => simp [hm] at h
  | some m =>
    simp only [hm] at h
    refine ⟨m, rfl, ?_⟩
    cases hex : ex fi.path with
    | some dd =>
      simp only [hex] at h
      by_cases hts : dd.last_modified = m
      · simp [hts] at h
      · simp only [if_neg hts] at h
        by_cases hct : trimEmpty (fi.content.getD "")
        · refine ⟨hct, ?_⟩
          intro x hx hxm
          have hxd : dd = x := Option.some.inj hx
          exact hts (hxd ▸ hxm)
        · simp [hct] at h
    | none =>
      simp only [hex] at h
      by_cases hct : trimEmpty (fi.content.getD "")
      · refine ⟨hct, ?_⟩
        intro x hx
        cases hx
      · simp [hct] at h

/-- Direct computation of the reuse outcome: a matching timestamp means the
previous document is carried over verbatim. -/
lemma fileOutcome_reuse {ex : String → Option Document} {fi : FileInfo}
    {d : Document} {m : Nat} (hm : fi.modified = some m)
    (hex : ex fi.path = some d) (hts : d.last_modified = m) :
    fileOutcome ex fi = .ok (some (.inl d)) := by
  rw [fileOutcome]
  simp only [hm, hex, if_pos hts]

lemma collect_inl_mem {ex : String → Option Document} :
    ∀ {files : List FileInfo}
      {os : List (Option (Document ⊕ (String × String × Nat)))},
    outcomesList ex files = .ok os → ∀ {fi : FileInfo}, fi ∈ files →
    ∀ {d : Document}, fileOutcome ex fi = .ok (some (.inl d)) →
    d ∈ (collectOutcomes os).1 := by
  intro files
  induction files with
  | nil => intro os h fi hfi; cases hfi
  | cons fj fs ih =>
    intro os h fi hfi d ho
    obtain ⟨o, os', ho', hos', rfl⟩ := outcomesList_cons_ok h
    rcases List.mem_cons.mp hfi with rfl | hfi'
    · have : o = some (.inl d) := by
        rw [ho] at ho'
        exact (Except.ok.inj ho').symm
      subst this
      simp [collectOutcomes]
    · have hmem := ih hos' hfi' ho
      cases o with
      | none => simpa [collectOutcomes] using hmem
      | some s =>
        cases s with
        | inl d' => simp [collectOutcomes]; exact Or.inr hmem
        | inr t => simpa [collectOutcomes] using hmem

lemma collect_paths_mem {ex : String → Option Document}
    (hex : ∀ p dd, ex p = some dd → dd.path = p) :
    ∀ {files : List FileInfo}
      {os : List (Option (Document ⊕ (String × String × Nat)))},
    outcomesList ex files = .ok os →
    (∀ d ∈ (collectOutcomes os).1, d.path ∈ files.map FileInfo.path) ∧
    (∀ t ∈ (collectOutcomes os).2, t.1 ∈ files.map FileInfo.path) := by
  intro files
  induction files with
  | nil =>
    intro os h
    obtain rfl : ([] : List (Option (Document ⊕ (String × String × Nat)))) = os :=
      Except.ok.inj h
    exact ⟨fun d hd => absurd hd (List.not_mem_nil d),
      fun t ht => absurd ht (List.not_mem_nil t)⟩
  | cons fj fs ih =>
    intro os h
    obtain ⟨o, os', ho', hos', rfl⟩ := outcomesList_cons_ok h
    have ihs := ih hos'
    cases o with
    | none =>
      refine ⟨fun d hd => ?_, fun t ht => ?_⟩
      · exact List.mem_cons_of_mem _ (ihs.1 d (by simpa [collectOutcomes] using hd))
      · exact List.mem_cons_of_mem _ (ihs.2 t (by simpa [collectOutcomes] using ht))
    | some s =>
      cases s with
      | inl d' =>
        have hpath : d'.path = fj.path := hex _ _ (fileOutcome_inl ho').2
        refine ⟨fun d hd => ?_, fun t ht => ?_⟩
        · rcases List.mem_cons.mp (by simpa [collectOutcomes] using hd) with rfl | hd'
          · exact hpath ▸ List.mem_cons_self _ _
          · exact List.mem_cons_of_mem _ (ihs.1 d hd')
        · exact List.mem_cons_of_mem _ (ihs.2 t (by simpa [collectOutcomes] using ht))
      | inr t' =>
        obtain ⟨p', c', m'⟩ := t'
        have hpath : p' = fj.path := (fileOutcome_inr ho').1
        refine ⟨fun d hd => ?_, fun t ht => ?_⟩
        · exact List.mem_cons_of_mem _ (ihs.1 d (by simpa [collectOutcomes] using hd))
        · rcases List.mem_cons.mp (by simpa [collectOutcomes] using ht) with rfl | ht'
          · exact hpath ▸ List.mem_cons_self _ _
          · exact List.mem_cons_of_mem _ (ihs.2 t ht')

lemma collect_paths_nodup {ex : String → Option Document}
    (hex : ∀ p dd, ex p = some dd → dd.path = p) :
    ∀ {files : List FileInfo}
      {os : List (Option (Document ⊕ (String × String × Nat)))},
    outcomesList ex files = .ok os →
    (files.map FileInfo.path).Nodup →
    ((collectOutcomes os).1.map Document.path ++
      (collectOutcomes os).2.map (fun t => t.1)).Nodup := by
  intro files
  induction files with
  | nil =>
    intro os h _
    obtain rfl : ([] : List (Option (Document ⊕ (String × String × Nat)))) = os :=
      Except.ok.inj h
    simp [collectOutcomes]
  | cons fj fs ih =>
    intro os h hnd
    simp only [List.map_cons, List.nodup_cons] at hnd
    obtain ⟨o, os', ho', hos', rfl⟩ := outcomesList_cons_ok h
    have ihs := ih hos' hnd.2
    have hmems := collect_paths_mem hex hos'
    cases o with
    | none => simpa [collectOutcomes] using ihs
    | some s =>
      cases s with
      | inl d' =>
        have hpath : d'.path = fj.path := hex _ _ (fileOutcome_inl ho').2
        have : ((collectOutcomes (some (Sum.inl d') :: os')).1.map Document.path ++
            (collectOutcomes (some (Sum.inl d') :: os')).2.map (fun t => t.1)) =
            d'.path :: ((collectOutcomes os').1.map Document.path ++
              (collectOutcomes os').2.map (fun t => t.1)) := by
          simp [collectOutcomes]
        rw [this, List.nodup_cons]
        refine ⟨fun hc => ?_, ihs⟩
        rcases List.mem_append.mp hc with hc' | hc'
        · obtain ⟨x, hx, hxp⟩ := List.mem_map.mp hc'
          exact hnd.1 (hpath ▸ hxp ▸ hmems.1 x hx)
        · obtain ⟨x, hx, hxp⟩ := List.mem_map.mp hc'
          exact hnd.1 (hpath ▸ hxp ▸ hmems.2 x hx)
      | inr t' =>
        obtain ⟨p', c', m'⟩ := t'
        have hpath : p' = fj.path := (fileOutcome_inr ho').1
        have : ((collectOutcomes (some (Sum.inr (p', c', m')) :: os')).1.map Document.path ++
            (collectOutcomes (some (Sum.inr (p', c', m')) :: os')).2.map (fun t => t.1)) =
            ((collectOutcomes os').1.map Document.path ++
              p' :: (collectOutcomes os').2.map (fun t => t.1)) := by
          simp [collectOutcomes]
        rw [this, List.nodup_middle, List.nodup_cons]
        refine ⟨fun hc => ?_, ihs⟩
        rcases List.mem_append.mp hc with hc' | hc'
        · obtain ⟨x, hx, hxp⟩ := List.mem_map.mp hc'
          exact hnd.1 (hpath ▸ hxp ▸ hmems.1 x hx)
        · obtain ⟨x, hx, hxp⟩ := List.mem_map.mp hc'
          exact hnd.1 (hpath ▸ hxp ▸ hmems.2 x hx)

lemma embedDocs_path_mem {ids : Nat → String} :
    ∀ {T : List (String × String × Nat)} {i : Nat} {es : List (List ℚ)}
      {d : Document},
    d ∈ embedDocs ids i T es → d.path ∈ T.map fun t => t.1 := by
  intro T
  induction T with
  | nil =>
    intro i es d h
    cases es with
    | nil => exact absurd h (List.not_mem_nil d)
    | cons e es' => exact absurd h (List.not_mem_nil d)
  | cons t ts ih =>
    intro i es d h
    obtain ⟨p, c, m⟩ := t
    cases es with
    | nil => exact absurd h (List.not_mem_nil d)
    | cons e es' =>
      rcases List.mem_cons.mp h with rfl | h'
      · exact List.mem_cons_self _ _
      · exact List.mem_cons_of_mem _ (ih h')

/-- Unfolding of the main path of `ingest` once the scan has succeeded. -/
lemma ingest_main {cfg : RagConfig}
    {entries : List ScanEntry}
    {provider : List String → Except String (List (List ℚ))}
    {ids : Nat → String} {st : RagState}
    {R : List Document} {T : List (String × String × Nat)}
    (hen : cfg.enabled = true)
    (hscan : get_files_to_embed st.disk entries = .ok (R, T)) :
    ingest cfg true true true entries provider ids st =
      if T.isEmpty && R.isEmpty then (.ok 0, st)
      else if T.isEmpty then
        (.ok R.length, { disk := some ⟨R⟩, cache := some ⟨R⟩ })
      else
        match provider (T.map fun t => t.2.1) with
        | .error e => (.error e, st)
        | .ok embs =>
          (.ok (R ++ embedDocs ids 0 T embs).length,
            { disk := some ⟨R ++ embedDocs ids 0 T embs⟩,
              cache := some ⟨R ++ embedDocs ids 0 T embs⟩ }) := by
  rw [ingest]
  simp only [hen, hscan]
  rfl

/-- C5: a document of the previous on-disk index whose backing file is
absent from the current scan appears in neither the reuse set nor the
to-embed set, and — whenever the pass assembles and publishes a new index —
in neither the new snapshot nor the new cache. -/
theorem c5_deletion_propagation (cfg : RagConfig)
    (entries : List ScanEntry)
    (provider : List String → Except String (List (List ℚ)))
    (ids : Nat → String) (st : RagState)
    (prev : RagIndex) (d : Document)
    (R : List Document) (T : List (String × String × Nat))
    (hen : cfg.enabled = true)
    (hdisk : st.disk = some prev)
    (hd : d ∈ prev.documents)
    (habsent : ∀ fi : FileInfo, ScanEntry.file fi ∈ entries → fi.path ≠ d.path)
    (hscan : get_files_to_embed st.disk entries = .ok (R, T)) :
    (∀ dr ∈ R, dr.path ≠ d.path)
    ∧ (∀ t ∈ T, t.1 ≠ d.path)
    ∧ ∀ n st', ingest cfg true true true entries provider ids st = (.ok n, st') →
        (T ≠ [] ∨ R ≠ []) →
        ∃ docs', st'.disk = some ⟨docs'⟩ ∧ st'.cache = some ⟨docs'⟩ ∧
          ∀ d' ∈ docs', d'.path ≠ d.path := by
  rw [hdisk, get_files_to_embed_char] at hscan
  have hex : ∀ p dd, existingOf (some prev) p = some dd → dd.path = p :=
    fun p dd hpd => existingOf_path hpd
  obtain ⟨os, hos, hcol⟩ :
      ∃ os, outcomesList (existingOf (some prev)) (dedupFiles entries []) = .ok os ∧
        collectOutcomes os = (R, T) := by
    cases hc : outcomesList (existingOf (some prev)) (dedupFiles entries []) with
    | error e => rw [hc] at hscan; cases hscan
    | ok os =>
      rw [hc] at hscan
      exact ⟨os, rfl, Except.ok.inj hscan⟩
  have hmems := collect_paths_mem hex hos
  have hRp : ∀ dr ∈ R, dr.path ≠ d.path := by
    intro dr hdr hc
    have : dr.path ∈ (dedupFiles entries []).map FileInfo.path := by
      have := hmems.1 dr (by rw [hcol]; exact hdr)
      exact this
    obtain ⟨fi, hfi, hp⟩ := List.mem_map.mp this
    exact habsent fi (dedupFiles_path_mem hfi).1 (hp.trans hc)
  have hTp : ∀ t ∈ T, t.1 ≠ d.path := by
    intro t ht hc
    have : t.1 ∈ (dedupFiles entries []).map FileInfo.path := by
      have := hmems.2 t (by rw [hcol]; exact ht)
      exact this
    obtain ⟨fi, hfi, hp⟩ := List.mem_map.mp this
    exact habsent fi (dedupFiles_path_mem hfi).1 (hp.trans hc)
  refine ⟨hRp, hTp, ?_⟩
  intro n st' hing hne
  have hscan' : get_files_to_embed st.disk entries = .ok (R, T) := by
    rw [hdisk, get_files_to_embed_char, hos]
    simp [hcol]
  rw [ingest_main hen hscan'] at hing
  cases hT : T with
  | nil =>
    have hR : R ≠ [] := by
      rcases hne with hne | hne
      · exact absurd hT hne
      · exact hne
    have hRe : R.isEmpty = false := by simpa [List.isEmpty_iff] using hR
    have hTe : T.isEmpty = true := by rw [hT]; rfl
    simp only [hTe, hRe, Bool.true_and, if_true, if_false, Bool.false_eq_true] at hing
    rw [Prod.mk.injEq] at hing
    exact ⟨R, hing.2 ▸ rfl, hing.2 ▸ rfl, hRp⟩
  | cons t0 ts =>
    have hTe : T.isEmpty = false := by rw [hT]; rfl
    simp only [hTe, Bool.false_and, if_false, Bool.false_eq_true] at hing
    cases hpr : provider (T.map fun t => t.2.1) with
    | error e =>
      rw [hpr] at hing
      cases congrArg Prod.fst hing
    | ok embs =>
      rw [hpr] at hing
      rw [Prod.mk.injEq] at hing
      refine ⟨R ++ embedDocs ids 0 T embs, hing.2 ▸ rfl, hing.2 ▸ rfl, ?_⟩
      intro d' hd'
      rcases List.mem_append.mp hd' with h' | h'
      · exact hRp d' h'
      · intro hc
        obtain ⟨t, ht, hp⟩ := List.mem_map.mp (embedDocs_path_mem h')
        exact hTp t ht (hp.trans hc)

/-- Witness for C5: `old.txt` is in the previous snapshot but deleted on
disk; the scan only finds `new.txt`. -/
theorem c5_deletion_propagation_witness :
    (∀ dr ∈ ([] : List Document), dr.path ≠ "old.txt")
    ∧ (∀ t ∈ [("new.txt", "hello", 1)], (t : String × String × Nat).1 ≠ "old.txt")
    ∧ ∀ n st', ingest ⟨true, 3, 1/2⟩ true true true
        [.file ⟨"new.txt", some 1, some "hello"⟩]
        (fun texts => .ok (texts.map fun _ => ([1] : List ℚ)))
        (fun _ => "fresh")
        ⟨some ⟨[⟨"i", "old.txt", "x", [1], 3⟩]⟩, none⟩ = (.ok n, st') →
        ([("new.txt", "hello", 1)] ≠ ([] : List (String × String × Nat)) ∨
          ([] : List Document) ≠ []) →
        ∃ docs', st'.disk = some ⟨docs'⟩ ∧ st'.cache = some ⟨docs'⟩ ∧
          ∀ d' ∈ docs', d'.path ≠ "old.txt" := by
  have h := c5_deletion_propagation ⟨true, 3, 1/2⟩
    [.file ⟨"new.txt", some 1, some "hello"⟩]
    (fun texts => .ok (texts.map fun _ => ([1] : List ℚ)))
    (fun _ => "fresh")
    ⟨some ⟨[⟨"i", "old.txt", "x", [1], 3⟩]⟩, none⟩
    ⟨[⟨"i", "old.txt", "x", [1], 3⟩]⟩
    ⟨"i", "old.txt", "x", [1], 3⟩
    [] [("new.txt", "hello", 1)]
    rfl rfl (List.mem_singleton.mpr rfl)
    (by
      intro fi hfi
      have : ScanEntry.file fi = ScanEntry.file ⟨"new.txt", some 1, some "hello"⟩ :=
        List.mem_singleton.mp hfi
      cases this
      decide)
    rfl
  exact h

lemma get_files_ok_inv {prev : Option RagIndex} {entries : List ScanEntry}
    {R : List Document} {T : List (String × String × Nat)}
    (h : get_files_to_embed prev entries = .ok (R, T)) :
    ∃ os, outcomesList (existingOf prev) (dedupFiles entries []) = .ok os ∧
      collectOutcomes os = (R, T) := by
  rw [get_files_to_embed_char] at h
  cases hc : outcomesList (existingOf prev) (dedupFiles entries []) with
  | error e => rw [hc] at h; cases h
  | ok os =>
    rw [hc] at h
    exact ⟨os, rfl, Except.ok.inj h⟩

/-- C2: a scanned file with an exact `last_modified` match against the
previous index is reused verbatim (the very same `Document`, with its id,
content and embedding) and is never scheduled for embedding; the provider
batch — read off the single call site — is exactly the contents of the
to-embed files, so the provider is never invoked for unchanged paths, and
the reused document survives into the published index. -/
theorem c2_cache_hit_reuse (cfg : RagConfig) (iop hmdl root : Bool)
    (entries : List ScanEntry)
    (provider : List String → Except String (List (List ℚ)))
    (ids : Nat → String) (prev : RagIndex) (fi : FileInfo) (m : Nat)
    (d : Document) (R : List Document) (T : List (String × String × Nat))
    (hscan : get_files_to_embed (some prev) entries = .ok (R, T))
    (hfi : fi ∈ dedupFiles entries [])
    (hm : fi.modified = some m)
    (hlook : lookupDoc prev.documents fi.path = some d)
    (hts : d.last_modified = m) :
    d ∈ R
    ∧ fi.path ∉ T.map (fun t => t.1)
    ∧ (∀ st : RagState, st.disk = some prev →
        (ingestBatches cfg iop hmdl root entries st).length ≤ 1
        ∧ ∀ batch ∈ ingestBatches cfg iop hmdl root entries st,
            batch = T.map fun t => t.2.1)
    ∧ (∀ st : RagState, st.disk = some prev → cfg.enabled = true →
        ∀ n st', ingest cfg true true true entries provider ids st = (.ok n, st') →
        ∃ docs', st'.disk = some ⟨docs'⟩ ∧ st'.cache = some ⟨docs'⟩ ∧
          d ∈ docs') := by
  obtain ⟨os, hos, hcol⟩ := get_files_ok_inv hscan
  have hex : ∀ p dd, existingOf (some prev) p = some dd → dd.path = p :=
    fun p dd hpd => existingOf_path hpd
  have hlook' : existingOf (some prev) fi.path = some d := hlook
  have ho : fileOutcome (existingOf (some prev)) fi = .ok (some (.inl d)) :=
    fileOutcome_reuse hm hlook' hts
  have hdR : d ∈ R := by
    have := collect_inl_mem hos hfi ho
    rw [hcol] at this
    exact this
  have hdpath : d.path = fi.path := (lookupDoc_eq_some hlook).2
  have hnotT : fi.path ∉ T.map fun t => t.1 := by
    intro hc
    have hnd := collect_paths_nodup hex hos (dedupFiles_nodup entries [])
    rw [hcol] at hnd
    have hdisj := (List.nodup_append.mp hnd).2.2
    exact hdisj (hdpath ▸ List.mem_map_of_mem Document.path hdR) hc
  refine ⟨hdR, hnotT, ?_, ?_⟩
  · intro st hst
    have hdisj : ingestBatches cfg iop hmdl root entries st = [] ∨
        ingestBatches cfg iop hmdl root entries st =
          [T.map fun t => t.2.1] := by
      simp only [ingestBatches, hst, hscan]
      split
      · exact Or.inl rfl
      · split
        · exact Or.inl rfl
        · split
          · exact Or.inl rfl
          · split
            · exact Or.inl rfl
            · split
              · exact Or.inl rfl
              · exact Or.inr rfl
    rcases hdisj with h | h <;> rw [h]
    · exact ⟨by simp, by simp⟩
    · refine ⟨by simp, ?_⟩
      intro batch hb
      rw [List.mem_singleton.mp hb]
  · intro st hst hen n st' hing
    have hscan' : get_files_to_embed st.disk entries = .ok (R, T) := by
      rw [hst]; exact hscan
    rw [ingest_main hen hscan'] at hing
    have hRe : R.isEmpty = false := by
      have : R ≠ [] := by
        intro hc
        rw [hc] at hdR
        exact List.not_mem_nil d hdR
      simpa [List.isEmpty_iff] using this
    cases hTe : T.isEmpty with
    | true =>
      simp only [hTe, hRe, Bool.true_and, if_true, if_false, Bool.false_eq_true] at hing
      rw [Prod.mk.injEq] at hing
      exact ⟨R, hing.2 ▸ rfl, hing.2 ▸ rfl, hdR⟩
    | false =>
      simp only [hTe, Bool.false_and, if_false, Bool.false_eq_true] at hing
      cases hpr : provider (T.map fun t => t.2.1) with
      | error e =>
        rw [hpr] at hing
        cases congrArg Prod.fst hing
      | ok embs =>
        rw [hpr] at hing
        rw [Prod.mk.injEq] at hing
        exact ⟨R ++ embedDocs ids 0 T embs, hing.2 ▸ rfl, hing.2 ▸ rfl,
          List.mem_append_left _ hdR⟩

/-- Witness for C2: `a.txt` is unchanged (timestamp 5) and reused; only
`b.txt` is embedded. -/
theorem c2_cache_hit_reuse_witness :
    (⟨"id1", "a.txt", "alpha", [2], 5⟩ : Document) ∈
      [(⟨"id1", "a.txt", "alpha", [2], 5⟩ : Document)]
    ∧ "a.txt" ∉ [("b.txt", "beta", 1)].map
        (fun t : String × String × Nat => t.1)
    ∧ (∀ st : RagState,
        st.disk = some ⟨[⟨"id1", "a.txt", "alpha", [2], 5⟩]⟩ →
        (ingestBatches ⟨true, 3, 1/2⟩ true true true
          [.file ⟨"a.txt", some 5, some "alpha"⟩,
            .file ⟨"b.txt", some 1, some "beta"⟩] st).length ≤ 1
        ∧ ∀ batch ∈ ingestBatches ⟨true, 3, 1/2⟩ true true true
            [.file ⟨"a.txt", some 5, some "alpha"⟩,
              .file ⟨"b.txt", some 1, some "beta"⟩] st,
            batch = [("b.txt", "beta", 1)].map
              (fun t : String × String × Nat => t.2.1))
    ∧ (∀ st : RagState,
        st.disk = some ⟨[⟨"id1", "a.txt", "alpha", [2], 5⟩]⟩ →
        (⟨true, 3, 1/2⟩ : RagConfig).enabled = true →
        ∀ n st', ingest ⟨true, 3, 1/2⟩ true true true
          [.file ⟨"a.txt", some 5, some "alpha"⟩,
            .file ⟨"b.txt", some 1, some "beta"⟩]
          (fun texts => .ok (texts.map fun _ => ([1] : List ℚ)))
          (fun _ => "fresh") st = (.ok n, st') →
        ∃ docs', st'.disk = some ⟨docs'⟩ ∧ st'.cache = some ⟨docs'⟩ ∧
          (⟨"id1", "a.txt", "alpha", [2], 5⟩ : Document) ∈ docs') :=
  c2_cache_hit_reuse ⟨true, 3, 1/2⟩ true true true
    [.file ⟨"a.txt", some 5, some "alpha"⟩, .file ⟨"b.txt", some 1, some "beta"⟩]
    (fun texts => .ok (texts.map fun _ => ([1] : List ℚ)))
    (fun _ => "fresh")
    ⟨[⟨"id1", "a.txt", "alpha", [2], 5⟩]⟩
    ⟨"a.txt", some 5, some "alpha"⟩ 5
    ⟨"id1", "a.txt", "alpha", [2], 5⟩
    [⟨"id1", "a.txt", "alpha", [2], 5⟩] [("b.txt", "beta", 1)]
    rfl (by decide) rfl rfl rfl

/-- A scan entry whose metadata read succeeds (or an errored glob entry,
which never reaches the metadata read). -/
def entryHasMeta : ScanEntry → Bool
  | .err => true
  | .file fi => fi.modified.isSome

lemma fileOutcome_ok {ex : String → Option Document} {fi : FileInfo}
    (h : fi.modified.isSome) : ∃ o, fileOutcome ex fi = .ok o := by
  rw [fileOutcome]
  cases hm : fi.modified with
  | none => rw [hm] at h; cases h
  | some m =>
    simp only [hm]
    cases hex : ex fi.path with
    | some dd =>
      by_cases hts : dd.last_modified = m
      · exact ⟨some (.inl dd), by simp [hts]⟩
      · by_cases hct : trimEmpty (fi.content.getD "")
        · exact ⟨none, by simp [hts, hct]⟩
        · exact ⟨some (.inr (fi.path, fi.content.getD "", m)), by simp [hts, hct]⟩
    | none =>
      by_cases hct : trimEmpty (fi.content.getD "")
      · exact ⟨none, by simp [hct]⟩
      · exact ⟨some (.inr (fi.path, fi.content.getD "", m)), by simp [hct]⟩

lemma outcomesList_ok_of_meta {ex : String → Option Document} :
    ∀ {files : List FileInfo},
    (∀ fi ∈ files, (fi : FileInfo).modified.isSome) →
    ∃ os, outcomesList ex files = .ok os := by
  intro files
  induction files with
  | nil => intro _; exact ⟨[], rfl⟩
  | cons fj fs ih =>
    intro h
    obtain ⟨o, ho⟩ := @fileOutcome_ok ex fj (h fj (List.mem_cons_self _ _))
    obtain ⟨os, hos⟩ := ih fun x hx => h x (List.mem_cons_of_mem _ hx)
    refine ⟨o :: os, ?_⟩
    rw [outcomesList, ho, hos]

/-- C6 (amended): errored glob entries, unreadable files and
whitespace-only files are skipped without failing the pass — whenever every
deduplicated file's metadata read succeeds the scan returns `Ok` — but a
metadata read failure on a matched file aborts the whole scan (see the
counterexample). -/
theorem c6_per_file_errors_amended :
    (∀ (prev : Option RagIndex) (entries : List ScanEntry),
      (∀ e ∈ entries, entryHasMeta e = true) →
      ∃ R T, get_files_to_embed prev entries = .ok (R, T))
    ∧ (∀ (ex : String → Option Document) (rest : List ScanEntry)
        (found : List String) (fd : List Document)
        (dte : List (String × String × Nat)),
        scanLoop ex (ScanEntry.err :: rest) found fd dte =
          scanLoop ex rest found fd dte)
    ∧ (∀ (ex : String → Option Document) (fi : FileInfo)
        (rest : List ScanEntry) (found : List String) (fd : List Document)
        (dte : List (String × String × Nat)) (m : Nat),
        fi.path ∉ found → fi.modified = some m →
        trimEmpty (fi.content.getD "") = true →
        (∀ dd, ex fi.path = some dd → dd.last_modified ≠ m) →
        scanLoop ex (ScanEntry.file fi :: rest) found fd dte =
          scanLoop ex rest (fi.path :: found) fd dte) := by
  refine ⟨?_, ?_, ?_⟩
  · intro prev entries hmeta
    have hfiles : ∀ fi ∈ dedupFiles entries [], (fi : FileInfo).modified.isSome := by
      intro fi hfi
      have := hmeta _ (dedupFiles_path_mem hfi).1
      simpa [entryHasMeta] using this
    obtain ⟨os, hos⟩ := @outcomesList_ok_of_meta (existingOf prev) (dedupFiles entries []) hfiles
    refine ⟨(collectOutcomes os).1, (collectOutcomes os).2, ?_⟩
    rw [get_files_to_embed_char, hos]
  · intro ex rest found fd dte
    rfl
  · intro ex fi rest found fd dte m hnf hm hct hmiss
    simp only [scanLoop, if_neg hnf, hm]
    cases hex : ex fi.path with
    | some dd =>
      have hne : ¬dd.last_modified = m := hmiss dd hex
      simp [hex, hne, hct]
    | none => simp [hex, hct]

/-- Witness for C6 (amended): an errored glob entry, an unreadable file and
a whitespace-only file are all skipped and the scan succeeds. -/
theorem c6_per_file_errors_amended_witness :
    (∃ R T, get_files_to_embed none
      [ScanEntry.err, .file ⟨"u.txt", some 2, none⟩,
        .file ⟨"w.txt", some 3, some "  "⟩] = .ok (R, T))
    ∧ scanLoop (fun _ => none)
        [ScanEntry.file ⟨"w.txt", some 3, some " "⟩] [] [] [] =
        scanLoop (fun _ => none) [] ["w.txt"] [] [] := by
  constructor
  · exact c6_per_file_errors_amended.1 none
      [ScanEntry.err, .file ⟨"u.txt", some 2, none⟩,
        .file ⟨"w.txt", some 3, some "  "⟩] (by decide)
  · exact c6_per_file_errors_amended.2.2 (fun _ => none)
      ⟨"w.txt", some 3, some " "⟩ [] [] [] [] 3
      (List.not_mem_nil _) rfl (by decide) (fun dd hdd => by cases hdd)

lemma lookupDoc_map_embed (f : Document → List ℚ) (p : String) :
    ∀ (docs : List Document) (acc : Option Document),
    (docs.map fun d => { d with embedding := f d }).foldl
        (fun a dd => if dd.path = p then some dd else a)
        (acc.map fun d => { d with embedding := f d }) =
      (docs.foldl (fun a dd => if dd.path = p then some dd else a) acc).map
        fun d => { d with embedding := f d } := by
  intro docs
  induction docs with
  | nil => intro acc; rfl
  | cons dd ds ih =>
    intro acc
    simp only [List.map_cons, List.foldl_cons]
    by_cases hp : dd.path = p
    · have h1 : (if ({ dd with embedding := f dd } : Document).path = p then
          some { dd with embedding := f dd }
        else acc.map fun d => { d with embedding := f d }) =
          (some dd).map fun d => { d with embedding := f d } := by
        simp [hp]
      rw [h1, if_pos hp]
      exact ih (some dd)
    · have h1 : (if ({ dd with embedding := f dd } : Document).path = p then
          some { dd with embedding := f dd }
        else acc.map fun d => { d with embedding := f d }) =
          acc.map fun d => { d with embedding := f d } := by
        simp [hp]
      rw [h1, if_neg hp]
      exact ih acc

lemma scanLoop_map_embed (f : Document → List ℚ)
    (ex₁ ex₂ : String → Option Document)
    (hex : ∀ p, ex₂ p = (ex₁ p).map fun d => { d with embedding := f d }) :
    ∀ (entries : List ScanEntry) (found : List String) (fd : List Document)
      (dte : List (String × String × Nat)),
    scanLoop ex₂ entries found (fd.map fun d => { d with embedding := f d }) dte =
      (scanLoop ex₁ entries found fd dte).map
        fun RT => (RT.1.map fun d => { d with embedding := f d }, RT.2) := by
  intro entries
  induction entries with
  | nil => intro found fd dte; rfl
  | cons e rest ih =>
    intro found fd dte
    cases e with
    | err => exact ih found fd dte
    | file fi =>
      by_cases hmem : fi.path ∈ found
      · simp only [scanLoop, if_pos hmem]
        exact ih found fd dte
      · simp only [scanLoop, if_neg hmem]
        cases hm : fi.modified with
        | none => rfl
        | some m =>
          have hex2 := hex fi.path
          cases hex1 : ex₁ fi.path with
          | some dd =>
            rw [hex1] at hex2
            simp only [hex2, Option.map_some']
            by_cases hts : dd.last_modified = m
            · have hts' : ({ dd with embedding := f dd } : Document).last_modified = m := hts
              rw [if_pos hts', if_pos hts]
              have : (fd.map fun d => { d with embedding := f d }) ++
                  [{ dd with embedding := f dd }] =
                  (fd ++ [dd]).map fun d => { d with embedding := f d } := by
                simp
              rw [this]
              exact ih _ _ _
            · have hts' : ¬({ dd with embedding := f dd } : Document).last_modified = m := hts
              rw [if_neg hts', if_neg hts]
              by_cases hct : trimEmpty (fi.content.getD "")
              · simp only [if_pos hct]
                exact ih _ _ _
              · simp only [if_neg hct]
                exact ih _ _ _
          | none =>
            rw [hex1] at hex2
            simp only [hex2, Option.map_none']
            by_cases hct : trimEmpty (fi.content.getD "")
            · simp only [if_pos hct]
              exact ih _ _ _
            · simp only [if_neg hct]
              exact ih _ _ _

/-- C8 (amended): the reuse decision is based solely on `last_modified`
equality and never inspects the stored embedding.  Replacing every
embedding in the previous index — in particular by vectors whose length
differs from the provider's output dimension — leaves the to-embed set
unchanged (no re-embedding is triggered) and reuses the same documents with
the replaced embeddings. -/
theorem c8_reuse_ignores_dimension_amended (docs : List Document)
    (entries : List ScanEntry) (f : Document → List ℚ) :
    get_files_to_embed (some ⟨docs.map fun d => { d with embedding := f d }⟩)
        entries =
      (get_files_to_embed (some ⟨docs⟩) entries).map
        fun RT => (RT.1.map fun d => { d with embedding := f d }, RT.2) := by
  rw [get_files_to_embed, get_files_to_embed]
  have hfd : ([] : List Document) =
      ([] : List Document).map fun d => { d with embedding := f d } := rfl
  rw [show (([] : List Document) : List Document) =
    (([] : List Document).map fun d => { d with embedding := f d }) from rfl]
  refine scanLoop_map_embed f _ _ ?_ entries [] [] []
  intro p
  show lookupDoc (docs.map fun d => { d with embedding := f d }) p =
    (lookupDoc docs p).map fun d => { d with embedding := f d }
  rw [lookupDoc, lookupDoc]
  have := lookupDoc_map_embed f p docs none
  simpa using this

lemma sum_squares_nonneg (l : List ℚ) : 0 ≤ (l.map fun x => x * x).sum := by
  induction l with
  | nil => simp
  | cons x xs ih =>
    simp only [List.map_cons, List.sum_cons]
    have hx := mul_self_nonneg x
    linarith

lemma sum_squares_eq_zero_iff (l : List ℚ) :
    (l.map fun x => x * x).sum = 0 ↔ ∀ x ∈ l, x = 0 := by
  induction l with
  | nil => simp
  | cons x xs ih =>
    simp only [List.map_cons, List.sum_cons, List.mem_cons]
    constructor
    · intro h
      have h1 := mul_self_nonneg x
      have h2 := sum_squares_nonneg xs
      have hx : x * x = 0 := by linarith
      have hxs : (xs.map fun y => y * y).sum = 0 := by linarith
      have hx0 : x = 0 := mul_self_eq_zero.mp hx
      intro y hy
      rcases hy with hy | hy
      · exact hy ▸ hx0
      · exact ih.mp hxs y hy
    · intro h
      have hx0 : x = 0 := h x (Or.inl rfl)
      have hxs : (xs.map fun y => y * y).sum = 0 :=
        ih.mpr fun y hy => h y (Or.inr hy)
      simp [hx0, hxs]

/-- C9: `cosine_similarity` returns 0 whenever either vector has zero
magnitude (over the exact-arithmetic model, zero magnitude means every
component is 0), and otherwise the division is performed with a nonzero
divisor.  The hypothesis on `sqrtf` states what `f32::sqrt` satisfies on
nonnegative finite inputs (`sqrt x = 0` exactly when `x = 0`); in this
model there is no NaN to propagate and the result is a total rational. -/
theorem c9_cosine_zero_magnitude (sqrtf : ℚ → ℚ)
    (hsq : ∀ x : ℚ, 0 ≤ x → (sqrtf x = 0 ↔ x = 0)) (a b : List ℚ) :
    (((∀ x ∈ a, x = 0) ∨ (∀ x ∈ b, x = 0)) → cosine_similarity sqrtf a b = 0)
    ∧ (¬((∀ x ∈ a, x = 0) ∨ (∀ x ∈ b, x = 0)) →
        sqrtf ((a.map fun x => x * x).sum) * sqrtf ((b.map fun x => x * x).sum) ≠ 0
        ∧ cosine_similarity sqrtf a b =
            (((a.zip b).map fun p => p.1 * p.2).sum) /
              (sqrtf ((a.map fun x => x * x).sum) *
                sqrtf ((b.map fun x => x * x).sum))) := by
  have hga := hsq _ (sum_squares_nonneg a)
  have hgb := hsq _ (sum_squares_nonneg b)
  constructor
  · intro h
    rcases h with h | h
    · have : sqrtf ((a.map fun x => x * x).sum) = 0 :=
        hga.mpr ((sum_squares_eq_zero_iff a).mpr h)
      simp [cosine_similarity, this]
    · have : sqrtf ((b.map fun x => x * x).sum) = 0 :=
        hgb.mpr ((sum_squares_eq_zero_iff b).mpr h)
      simp [cosine_similarity, this]
  · intro h
    push_neg at h
    have ha : sqrtf ((a.map fun x => x * x).sum) ≠ 0 := by
      intro hc
      obtain ⟨x, hx, hx0⟩ := h.1
      exact hx0 ((sum_squares_eq_zero_iff a).mp (hga.mp hc) x hx)
    have hb : sqrtf ((b.map fun x => x * x).sum) ≠ 0 := by
      intro hc
      obtain ⟨x, hx, hx0⟩ := h.2
      exact hx0 ((sum_squares_eq_zero_iff b).mp (hgb.mp hc) x hx)
    refine ⟨mul_ne_zero ha hb, ?_⟩
    simp [cosine_similarity, ha, hb]

/-- Witness for C9 at a concrete input: the zero vector against `[1]`. -/
theorem c9_cosine_zero_magnitude_witness :
    cosine_similarity (fun x => x) [0, 0] [1] = 0 :=
  (c9_cosine_zero_magnitude (fun x => x) (fun _ _ => Iff.rfl) [0, 0] [1]).1
    (Or.inl (by decide))

/-- C7: when the feature is disabled or the engine is not operational,
`ingest` returns `Ok(0)` and `query` returns `Ok([])`, neither touches the
state, and neither returns an error (rag.rs lines 139-141, 216-223). -/
theorem c7_degraded_mode (cfg : RagConfig) (iop hm root : Bool)
    (entries : List ScanEntry)
    (provider : List String → Except String (List (List ℚ)))
    (ids : Nat → String) (st : RagState) (sqrtf : ℚ → ℚ)
    (embed_query : Except String (List ℚ))
    (h : cfg.enabled = false ∨ iop = false) :
    ingest cfg iop hm root entries provider ids st = (.ok 0, st)
    ∧ query cfg iop hm sqrtf embed_query st = (.ok [], st) := by
  rcases h with h | h
  · constructor <;> simp [ingest, query, h]
  · cases hcfg : cfg.enabled <;> constructor <;> simp [ingest, query, h, hcfg]

/-- Witness for C7: a non-operational engine with an otherwise-enabled
configuration. -/
theorem c7_degraded_mode_witness :
    ingest ⟨true, 3, 1/2⟩ false true true [] (fun _ => .ok [])
        (fun _ => "") ⟨none, none⟩ = (.ok 0, ⟨none, none⟩)
    ∧ query ⟨true, 3, 1/2⟩ false true (fun x => x) (.ok [1]) ⟨none, none⟩ =
        (.ok [], ⟨none, none⟩) :=
  c7_degraded_mode ⟨true, 3, 1/2⟩ false true true [] (fun _ => .ok [])
    (fun _ => "") ⟨none, none⟩ (fun x => x) (.ok [1]) (Or.inr rfl)

/-- C10: when the knowledge root does not exist, or the scan produces both
an empty reuse set and an empty to-embed set, `ingest` returns `Ok(0)` and
leaves the snapshot and the cache exactly as they were (rag.rs lines
152-155 and 171-173). -/
theorem c10_empty_pass_is_noop (cfg : RagConfig) (iop hm root : Bool)
    (entries : List ScanEntry)
    (provider : List String → Except String (List (List ℚ)))
    (ids : Nat → String) (st : RagState)
    (h : root = false ∨ get_files_to_embed st.disk entries = .ok ([], [])) :
    ingest cfg iop hm root entries provider ids st = (.ok 0, st) := by
  rcases h with h | h
  · subst h
    cases hc : (!cfg.enabled || !iop) <;> cases hm <;> simp [ingest, hc]
  · cases hc : (!cfg.enabled || !iop) <;> cases hhm : hm <;>
      cases hr : root <;> simp [ingest, hc, h]

/-- Witness for C10: an existing root whose scan finds nothing. -/
theorem c10_empty_pass_is_noop_witness :
    ingest ⟨true, 3, 1/2⟩ true true true [] (fun _ => .ok [])
      (fun _ => "") ⟨none, none⟩ = (.ok 0, ⟨none, none⟩) :=
  c10_empty_pass_is_noop ⟨true, 3, 1/2⟩ true true true [] (fun _ => .ok [])
    (fun _ => "") ⟨none, none⟩ (Or.inr rfl)

/-- C4: if the provider call fails during an indexing pass that has
files to embed, `ingest` propagates the error and neither the snapshot nor
the cache is modified (the error return at rag.rs line 178 happens before
the write at line 200 and the cache update at lines 205-208). -/
theorem c4_provider_failure_aborts_pass (cfg : RagConfig)
    (entries : List ScanEntry)
    (provider : List String → Except String (List (List ℚ)))
    (ids : Nat → String) (st : RagState)
    (final_docs : List Document) (docs_to_embed : List (String × String × Nat))
    (e : String)
    (hen : cfg.enabled = true)
    (hscan : get_files_to_embed st.disk entries = .ok (final_docs, docs_to_embed))
    (hT : docs_to_embed ≠ [])
    (hprov : provider (docs_to_embed.map fun t => t.2.1) = .error e) :
    ingest cfg true true true entries provider ids st = (.error e, st) := by
  have hTe : docs_to_embed.isEmpty = false := by
    simpa [List.isEmpty_iff] using hT
  simp [ingest, hen, hscan, hTe, hprov]

/-- Witness for C4: one new file, a provider that always fails. -/
theorem c4_provider_failure_aborts_pass_witness :
    get_files_to_embed none [.file ⟨"a.txt", some 1, some "hi"⟩] =
      .ok ([], [("a.txt", "hi", 1)])
    ∧ ingest ⟨true, 3, 1/2⟩ true true true [.file ⟨"a.txt", some 1, some "hi"⟩]
        (fun _ => .error "boom") (fun _ => "") ⟨none, none⟩ =
        (.error "boom", ⟨none, none⟩) :=
  ⟨rfl,
    c4_provider_failure_aborts_pass ⟨true, 3, 1/2⟩
      [.file ⟨"a.txt", some 1, some "hi"⟩] (fun _ => .error "boom")
      (fun _ => "") ⟨none, none⟩ [] [("a.txt", "hi", 1)] "boom" rfl
      rfl (by decide) rfl⟩

/-- C6 counterexample: a single matched file whose metadata read fails does
not merely get skipped — the `?` on `fs::metadata` (rag.rs line 112) aborts
the whole scan with an error, while the same scan without that file
succeeds. -/
theorem c6_counterexample :
    get_files_to_embed none [.file ⟨"a.txt", none, some "hello"⟩] =
      .error "failed to read file metadata"
    ∧ get_files_to_embed none [] = .ok ([], []) := by
  constructor <;> rfl

/-- C8 counterexample: a previous document whose embedding length (0) does
not match the provider's output dimension (this provider returns
2-dimensional vectors) is still reused verbatim when `last_modified`
matches — the reuse check (rag.rs lines 115-121) never looks at the
embedding, so no re-embedding is triggered and the provider batch stays
empty. -/
theorem c8_counterexample :
    get_files_to_embed (some ⟨[⟨"id0", "a.txt", "alpha", [], 7⟩]⟩)
        [.file ⟨"a.txt", some 7, some "alpha"⟩] =
      .ok ([⟨"id0", "a.txt", "alpha", [], 7⟩], [])
    ∧ (Document.embedding ⟨"id0", "a.txt", "alpha", [], 7⟩).length = 0
    ∧ ingest ⟨true, 3, 1/2⟩ true true true
        [.file ⟨"a.txt", some 7, some "alpha"⟩]
        (fun texts => .ok (texts.map fun _ => ([1, 0] : List ℚ)))
        (fun _ => "fresh") ⟨some ⟨[⟨"id0", "a.txt", "alpha", [], 7⟩]⟩, none⟩ =
        (.ok 1, ⟨some ⟨[⟨"id0", "a.txt", "alpha", [], 7⟩]⟩,
          some ⟨[⟨"id0", "a.txt", "alpha", [], 7⟩]⟩⟩) := by
  exact ⟨rfl, rfl, rfl⟩

/-! ### Claim 1: the ranking contract of `query` -/

lemma descLE_trans : ∀ a b c : ℚ × Document,
    descLE a b = true → descLE b c = true → descLE a c = true := by
  intro a b c hab hbc
  simp only [descLE, decide_eq_true_eq] at hab hbc ⊢
  exact le_trans hbc hab

lemma descLE_total : ∀ a b : ℚ × Document, (descLE a b || descLE b a) = true := by
  intro a b
  simp only [descLE, Bool.or_eq_true, decide_eq_true_eq]
  exact le_total b.1 a.1

lemma specLE_eq_enumLE : specLE = List.enumLE descLE := by
  funext a b
  simp only [specLE, List.enumLE, descLE]
  rcases lt_trichotomy a.2.1 b.2.1 with h | h | h
  · have h1 : ¬a.2.1 = b.2.1 := ne_of_lt h
    have h2 : ¬b.2.1 ≤ a.2.1 := not_le.mpr h
    have h3 : ¬b.2.1 < a.2.1 := not_lt.mpr (le_of_lt h)
    simp [h1, h2, h3]
  · have h2 : b.2.1 ≤ a.2.1 := le_of_eq h.symm
    have h3 : a.2.1 ≤ b.2.1 := le_of_eq h
    simp [h, h2, h3]
  · have h1 : ¬a.2.1 = b.2.1 := ne_of_gt h
    have h2 : b.2.1 ≤ a.2.1 := le_of_lt h
    have h3 : ¬a.2.1 ≤ b.2.1 := not_le.mpr h
    simp [h1, h2, h3, h]

/-- Two sorted lists that are permutations of each other coincide, provided
the order is antisymmetric on the elements involved. -/
lemma sorted_perm_eq {α : Type} (r : α → α → Bool) :
    ∀ {l₁ l₂ : List α},
    (∀ a ∈ l₁, ∀ b ∈ l₂, r a b = true → r b a = true → a = b) →
    l₁.Perm l₂ → l₁.Pairwise (fun a b => r a b = true) →
    l₂.Pairwise (fun a b => r a b = true) → l₁ = l₂ := by
  intro l₁
  induction l₁ with
  | nil =>
    intro l₂ _ hperm _ _
    exact hperm.nil_eq
  | cons a t₁ ih =>
    intro l₂ hanti hperm hs₁ hs₂
    cases l₂ with
    | nil =>
      have := hperm.length_eq
      simp at this
    | cons b t₂ =>
      have hab : a = b := by
        by_cases heq : a = b
        · exact heq
        · have ha2 : a ∈ b :: t₂ := hperm.mem_iff.mp (List.mem_cons_self a t₁)
          have hb1 : b ∈ a :: t₁ := hperm.symm.mem_iff.mp (List.mem_cons_self b t₂)
          have ha2' : a ∈ t₂ := by
            rcases List.mem_cons.mp ha2 with h | h
            · exact absurd h heq
            · exact h
          have hb1' : b ∈ t₁ := by
            rcases List.mem_cons.mp hb1 with h | h
            · exact absurd h.symm heq
            · exact h
          have hrab : r a b = true := (List.pairwise_cons.mp hs₁).1 b hb1'
          have hrba : r b a = true := (List.pairwise_cons.mp hs₂).1 a ha2'
          exact hanti a (List.mem_cons_self _ _) b (List.mem_cons_self _ _)
            hrab hrba
      subst hab
      have hperm' : t₁.Perm t₂ := hperm.cons_inv
      rw [ih (fun x hx y hy => hanti x (List.mem_cons_of_mem _ hx) y
          (List.mem_cons_of_mem _ hy)) hperm'
        (List.pairwise_cons.mp hs₁).2 (List.pairwise_cons.mp hs₂).2]

/-- A stable sort commutes with filtering when the order is antisymmetric
on the list being sorted. -/
lemma filter_mergeSort_eq {α : Type} (r : α → α → Bool)
    (htrans : ∀ a b c, r a b = true → r b c = true → r a c = true)
    (htotal : ∀ a b, (r a b || r b a) = true)
    {l : List α}
    (hanti : ∀ a ∈ l, ∀ b ∈ l, r a b = true → r b a = true → a = b)
    (p : α → Bool) :
    (l.mergeSort r).filter p = (l.filter p).mergeSort r := by
  apply sorted_perm_eq r
  · intro a ha b hb
    apply hanti
    · exact (List.mergeSort_perm l r).mem_iff.mp (List.mem_of_mem_filter ha)
    · exact List.mem_of_mem_filter
        ((List.mergeSort_perm (l.filter p) r).mem_iff.mp hb)
  · exact ((List.mergeSort_perm l r).filter p).trans
      (List.mergeSort_perm (l.filter p) r).symm
  · exact List.Pairwise.filter p (List.sorted_mergeSort htrans htotal l)
  · exact List.sorted_mergeSort htrans htotal (l.filter p)

lemma enumLE_antisymm_on {α : Type} {le : α → α → Bool} {l : List α} :
    ∀ a ∈ l.enum, ∀ b ∈ l.enum,
    List.enumLE le a b = true → List.enumLE le b a = true → a = b := by
  intro a ha b hb hab hba
  have hfst : a.1 = b.1 := by
    simp only [List.enumLE] at hab hba
    by_cases h1 : le a.2 b.2 = true
    · by_cases h2 : le b.2 a.2 = true
      · rw [if_pos h1, if_pos h2] at hab
        rw [if_pos h2, if_pos h1] at hba
        exact Nat.le_antisymm (by simpa using hab) (by simpa using hba)
      · rw [if_neg h2] at hba
        simp at hba
    · rw [if_neg h1] at hab
      simp at hab
  have hnd : (l.enum.map Prod.fst).Nodup := by
    rw [List.enum_map_fst]
    exact List.nodup_range _
  exact List.inj_on_of_nodup_map hnd ha hb hfst

/-- The code's ranking pipeline (stable sort of everything, then filter,
then truncate) equals the spec's description (filter, then stable sort with
ties in original order, then truncate). -/
lemma queryDocs_eq_spec (sqrtf : ℚ → ℚ) (qv : List ℚ) (ms : ℚ) (mr : Nat)
    (docs : List Document) :
    queryDocs sqrtf qv ms mr docs = querySpecDocs sqrtf qv ms mr docs := by
  rw [queryDocs, rankDocs, querySpecDocs]
  rw [← List.mergeSort_enum (l := scoreDocs sqrtf qv docs)]
  rw [List.filter_map]
  rw [filter_mergeSort_eq (List.enumLE descLE)
    (List.enumLE_trans descLE_trans) (List.enumLE_total descLE_total)
    enumLE_antisymm_on]
  rw [← specLE_eq_enumLE]
  rw [← List.map_take, List.map_map]
  rfl

/-- C1: on a non-empty cached index, `query` returns exactly the contents
described by the spec: documents with similarity at least `min_score`,
sorted by similarity descending with ties in original document order
(stable sort), truncated to `max_results`; in particular the result length
is at most `max_results`, adjacent ranked scores are non-increasing, every
ranked score meets the threshold, and the first ranked document has the
highest similarity among all documents meeting the threshold. -/
theorem c1_ranking_contract (cfg : RagConfig) (sqrtf : ℚ → ℚ) (qv : List ℚ)
    (st : RagState) (idx : RagIndex)
    (hen : cfg.enabled = true)
    (hcache : st.cache = some idx)
    (hne : idx.documents ≠ []) :
    query cfg true true sqrtf (.ok qv) st =
      (.ok (queryDocs sqrtf qv cfg.min_score cfg.max_results idx.documents), st)
    ∧ queryDocs sqrtf qv cfg.min_score cfg.max_results idx.documents =
        querySpecDocs sqrtf qv cfg.min_score cfg.max_results idx.documents
    ∧ (queryDocs sqrtf qv cfg.min_score cfg.max_results
        idx.documents).length ≤ cfg.max_results
    ∧ (rankDocs sqrtf qv cfg.min_score cfg.max_results idx.documents).Pairwise
        (fun a b => b.1 ≤ a.1)
    ∧ (∀ p ∈ rankDocs sqrtf qv cfg.min_score cfg.max_results idx.documents,
        cfg.min_score ≤ p.1)
    ∧ (∀ hd, (rankDocs sqrtf qv cfg.min_score cfg.max_results
          idx.documents).head? = some hd →
        ∀ q ∈ scoreDocs sqrtf qv idx.documents,
          cfg.min_score ≤ q.1 → q.1 ≤ hd.1) := by
  have hie : idx.documents.isEmpty = false := by
    simpa [List.isEmpty_iff] using hne
  refine ⟨?_, queryDocs_eq_spec sqrtf qv cfg.min_score cfg.max_results
    idx.documents, ?_, ?_, ?_, ?_⟩
  · simp [query, hen, hcache, hie]
  · rw [queryDocs, rankDocs]
    rw [List.length_map]
    exact List.length_take_le _ _
  · rw [rankDocs]
    refine List.Pairwise.imp ?_
      (((List.sorted_mergeSort descLE_trans descLE_total
          _).filter _).sublist (List.take_sublist _ _))
    intro a b h
    simpa [descLE] using h
  · intro p hp
    rw [rankDocs] at hp
    have hmem := List.mem_filter.mp (List.mem_of_mem_take hp)
    simpa using hmem.2
  · intro hd hhd q hq hql
    rw [rankDocs] at hhd
    rw [List.head?_take] at hhd
    by_cases hmr : cfg.max_results = 0
    · rw [if_pos hmr] at hhd; cases hhd
    · rw [if_neg hmr] at hhd
      have hqF : q ∈ ((scoreDocs sqrtf qv idx.documents).mergeSort
          descLE).filter fun p => decide (cfg.min_score ≤ p.1) :=
        List.mem_filter.mpr ⟨List.mem_mergeSort.mpr hq, by simpa using hql⟩
      have hsF : (((scoreDocs sqrtf qv idx.documents).mergeSort
          descLE).filter fun p => decide (cfg.min_score ≤ p.1)).Pairwise
          (fun a b => descLE a b = true) :=
        (List.sorted_mergeSort descLE_trans descLE_total _).filter _
      cases hFc : ((scoreDocs sqrtf qv idx.documents).mergeSort
          descLE).filter fun p => decide (cfg.min_score ≤ p.1) with
      | nil => rw [hFc] at hhd; cases hhd
      | cons x t =>
        rw [hFc] at hhd hqF hsF
        obtain rfl : x = hd := by simpa using hhd
        rcases List.mem_cons.mp hqF with rfl | hq'
        · exact le_refl _
        · have := (List.pairwise_cons.mp hsF).1 q hq'
          simpa [descLE] using this

/-- Witness for C1: two documents, query vector `[1, 0]`, both above the
zero threshold. -/
theorem c1_ranking_contract_witness :
    query ⟨true, 2, 0⟩ true true (fun x => x) (.ok [1, 0])
        ⟨none, some ⟨[⟨"dA", "a.txt", "A", [0, 1], 1⟩,
          ⟨"dB", "b.txt", "B", [1, 0], 2⟩]⟩⟩ =
      (.ok (queryDocs (fun x => x) [1, 0] 0 2
          [⟨"dA", "a.txt", "A", [0, 1], 1⟩, ⟨"dB", "b.txt", "B", [1, 0], 2⟩]),
        ⟨none, some ⟨[⟨"dA", "a.txt", "A", [0, 1], 1⟩,
          ⟨"dB", "b.txt", "B", [1, 0], 2⟩]⟩⟩) :=
  (c1_ranking_contract ⟨true, 2, 0⟩ (fun x => x) [1, 0]
    ⟨none, some ⟨[⟨"dA", "a.txt", "A", [0, 1], 1⟩,
      ⟨"dB", "b.txt", "B", [1, 0], 2⟩]⟩⟩
    ⟨[⟨"dA", "a.txt", "A", [0, 1], 1⟩, ⟨"dB", "b.txt", "B", [1, 0], 2⟩]⟩
    rfl rfl (by decide)).1

/-! ### Claim 3: idempotence of `ingest` under no filesystem changes

Strategy: after a successful pass that published the index `F`, every live
file's current `last_modified` equals the one recorded in `F`, so a second
scan reuses every document of `F` verbatim (in scan order) and schedules
nothing for embedding.  `pass2Docs` names that scan-order listing, and the
permutation lemma relates it to `F`'s grouped order (reused ++ embedded). -/

/-- The documents of an optional index (empty when absent). -/
def docsOf : Option RagIndex → List Document
  | none => []
  | some idx => idx.documents

/-- The reuse list produced by the second scan, in scan order: for each
first-pass outcome, the document that ended up in the published index (the
reused document itself, or the freshly embedded one). -/
def pass2Docs (ids : Nat → String) :
    Nat → List (Option (Document ⊕ (String × String × Nat))) →
    List (List ℚ) → List Document
  | _, [], _ => []
  | i, some (.inl d) :: os, embs => d :: pass2Docs ids i os embs
  | i, some (.inr t) :: os, e :: embs =>
    ⟨ids i, t.1, t.2.1, e, t.2.2⟩ :: pass2Docs ids (i + 1) os embs
  | i, some (.inr _) :: os, [] => pass2Docs ids (i + 1) os []
  | i, none :: os, embs => pass2Docs ids i os embs

/-- For each file of the second scan, what the lookup into the published
index must return: the reused document for a reuse outcome, the freshly
embedded document for an embed outcome, nothing for a skipped file. -/
def lookAgrees (g : String → Option Document) (ids : Nat → String) :
    List FileInfo → List (Option (Document ⊕ (String × String × Nat))) →
    Nat → List (List ℚ) → Prop
  | [], [], _, _ => True
  | fi :: fs, some (.inl d) :: os, i, embs =>
    g fi.path = some d ∧ lookAgrees g ids fs os i embs
  | fi :: fs, some (.inr t) :: os, i, e :: embs =>
    g fi.path = some ⟨ids i, t.1, t.2.1, e, t.2.2⟩ ∧
      lookAgrees g ids fs os (i + 1) embs
  | fi :: fs, none :: os, i, embs =>
    g fi.path = none ∧ lookAgrees g ids fs os i embs
  | _, _, _, _ => False

lemma embedDocs_map_path {ids : Nat → String} :
    ∀ {T : List (String × String × Nat)} {i : Nat} {es : List (List ℚ)},
    es.length = T.length →
    (embedDocs ids i T es).map Document.path = T.map fun t => t.1 := by
  intro T
  induction T with
  | nil =>
    intro i es hlen
    obtain rfl : es = [] := List.length_eq_zero.mp hlen
    rfl
  | cons t ts ih =>
    intro i es hlen
    obtain ⟨p, c, m⟩ := t
    cases es with
    | nil => cases hlen
    | cons e es' =>
      simp only [embedDocs, List.map_cons]
      rw [ih (by simpa using hlen)]

lemma embedDocs_length {ids : Nat → String}
    {T : List (String × String × Nat)} {i : Nat} {es : List (List ℚ)}
    (hlen : es.length = T.length) :
    (embedDocs ids i T es).length = T.length := by
  have := congrArg List.length (@embedDocs_map_path ids T i es hlen)
  simpa using this

lemma pass2Docs_perm (ids : Nat → String) :
    ∀ (os : List (Option (Document ⊕ (String × String × Nat))))
      (i : Nat) (embs : List (List ℚ)),
    embs.length = (collectOutcomes os).2.length →
    (pass2Docs ids i os embs).Perm
      ((collectOutcomes os).1 ++ embedDocs ids i (collectOutcomes os).2 embs) := by
  intro os
  induction os with
  | nil =>
    intro i embs _
    cases embs with
    | nil => exact List.Perm.refl _
    | cons e es => exact List.Perm.refl _
  | cons o os' ih =>
    intro i embs hlen
    cases o with
    | none => exact ih i embs hlen
    | some s =>
      cases s with
      | inl d =>
        have hp := ih i embs (by simpa [collectOutcomes] using hlen)
        simpa [pass2Docs, collectOutcomes] using hp.cons d
      | inr t =>
        obtain ⟨p, c, m⟩ := t
        cases embs with
        | nil => simp [collectOutcomes] at hlen
        | cons e embs' =>
          have hp := ih (i + 1) embs' (by simpa [collectOutcomes] using hlen)
          have step := (hp.cons (⟨ids i, p, c, e, m⟩ : Document)).trans
            List.perm_middle.symm
          simpa [pass2Docs, collectOutcomes, embedDocs] using step

/-- Direct computation of the skip outcome. -/
lemma fileOutcome_skip_mk {ex : String → Option Document} {fi : FileInfo}
    {m : Nat} (hm : fi.modified = some m) (hex : ex fi.path = none)
    (hct : trimEmpty (fi.content.getD "") = true) :
    fileOutcome ex fi = .ok none := by
  rw [fileOutcome]
  simp only [hm, hex, hct, if_true]

/-- The lookups into the published index `F` agree with the expected
per-file documents: `F` has no duplicate paths, contains every expected
document, and contains no path of a skipped file. -/
lemma lookAgrees_of {ex₁ : String → Option Document}
    (hex₁ : ∀ p dd, ex₁ p = some dd → dd.path = p)
    {F : List Document} (ids : Nat → String)
    (hFnd : (F.map Document.path).Nodup) :
    ∀ (files : List FileInfo)
      (os : List (Option (Document ⊕ (String × String × Nat))))
      (i : Nat) (embs : List (List ℚ)),
    outcomesList ex₁ files = .ok os →
    embs.length = (collectOutcomes os).2.length →
    (files.map FileInfo.path).Nodup →
    (∀ d ∈ (collectOutcomes os).1, d ∈ F) →
    (∀ d ∈ embedDocs ids i (collectOutcomes os).2 embs, d ∈ F) →
    (∀ p, p ∈ F.map Document.path → p ∈ files.map FileInfo.path →
      p ∈ (collectOutcomes os).1.map Document.path ∨
        p ∈ (collectOutcomes os).2.map fun t => t.1) →
    lookAgrees (lookupDoc F) ids files os i embs := by
  intro files
  induction files with
  | nil =>
    intro os i embs hos _ _ _ _ _
    obtain rfl : ([] : List (Option (Document ⊕ (String × String × Nat)))) = os :=
      Except.ok.inj hos
    trivial
  | cons fi fs ih =>
    intro os i embs hos hlen hnd hmemR hmemE hcover
    simp only [List.map_cons, List.nodup_cons] at hnd
    obtain ⟨o, os', ho', hos', rfl⟩ := outcomesList_cons_ok hos
    have hubs := collect_paths_mem hex₁ hos'
    cases o with
    | some s =>
      cases s with
      | inl d =>
        have hcR : (collectOutcomes (some (Sum.inl d) :: os')).1 =
            d :: (collectOutcomes os').1 := by simp [collectOutcomes]
        have hcT : (collectOutcomes (some (Sum.inl d) :: os')).2 =
            (collectOutcomes os').2 := by simp [collectOutcomes]
        have hdF : d ∈ F := hmemR d (by rw [hcR]; exact List.mem_cons_self _ _)
        have hdp : d.path = fi.path := hex₁ _ _ (fileOutcome_inl ho').2
        refine ⟨by rw [← hdp]; exact lookupDoc_of_mem_nodup hFnd hdF, ?_⟩
        refine ih os' i embs hos' (by rw [← hcT]; exact hlen) hnd.2
          (fun x hx => hmemR x (by rw [hcR]; exact List.mem_cons_of_mem _ hx))
          (fun x hx => hmemE x (by rw [hcT] at *; exact hx)) ?_
        intro p hpF hpfs
        have hpfiles : p ∈ (fi :: fs).map FileInfo.path :=
          List.mem_cons_of_mem _ hpfs
        rcases hcover p hpF hpfiles with hc | hc
        · rw [hcR, List.map_cons] at hc
          rcases List.mem_cons.mp hc with rfl | hc'
          · exact absurd (hdp ▸ hpfs) hnd.1
          · exact Or.inl hc'
        · rw [hcT] at hc
          exact Or.inr hc
      | inr t =>
        obtain ⟨p', c', m'⟩ := t
        have hcR : (collectOutcomes (some (Sum.inr (p', c', m')) :: os')).1 =
            (collectOutcomes os').1 := by simp [collectOutcomes]
        have hcT : (collectOutcomes (some (Sum.inr (p', c', m')) :: os')).2 =
            (p', c', m') :: (collectOutcomes os').2 := by simp [collectOutcomes]
        cases embs with
        | nil =>
          rw [hcT] at hlen
          cases hlen
        | cons e embs' =>
          have hdF : (⟨ids i, p', c', e, m'⟩ : Document) ∈ F := by
            refine hmemE _ ?_
            rw [hcT]
            exact List.mem_cons_self _ _
          have hpp : p' = fi.path := (fileOutcome_inr ho').1
          refine ⟨?_, ?_⟩
          · have := lookupDoc_of_mem_nodup hFnd hdF
            simpa [hpp] using this
          · refine ih os' (i + 1) embs' hos'
              (by rw [hcT] at hlen; simpa using hlen) hnd.2
              (fun x hx => hmemR x (by rw [hcR]; exact hx))
              (fun x hx => hmemE x (by
                rw [hcT]
                simp only [embedDocs]
                exact List.mem_cons_of_mem _ hx)) ?_
            intro p hpF hpfs
            have hpfiles : p ∈ (fi :: fs).map FileInfo.path :=
              List.mem_cons_of_mem _ hpfs
            rcases hcover p hpF hpfiles with hc | hc
            · rw [hcR] at hc
              exact Or.inl hc
            · rw [hcT, List.map_cons] at hc
              rcases List.mem_cons.mp hc with rfl | hc'
              · exact absurd (hpp ▸ hpfs) hnd.1
              · exact Or.inr hc'
    | none =>
      have hcc : collectOutcomes (none :: os') = collectOutcomes os' := by
        simp [collectOutcomes]
      have hnotF : fi.path ∉ F.map Document.path := by
        intro hc
        have := hcover fi.path hc (List.mem_cons_self _ _)
        rw [hcc] at this
        rcases this with hc' | hc'
        · obtain ⟨x, hx, hxp⟩ := List.mem_map.mp hc'
          exact hnd.1 (hxp ▸ hubs.1 x hx)
        · obtain ⟨x, hx, hxp⟩ := List.mem_map.mp hc'
          exact hnd.1 (hxp ▸ hubs.2 x hx)
      refine ⟨?_, ?_⟩
      · refine lookupDoc_eq_none ?_
        intro dd hdd hddp
        exact hnotF (hddp ▸ List.mem_map_of_mem Document.path hdd)
      · refine ih os' i embs hos' (by rw [← hcc] at *; exact hlen) hnd.2
          (fun x hx => hmemR x (by rw [hcc] at *; exact hx))
          (fun x hx => hmemE x (by rw [hcc] at *; exact hx)) ?_
        intro p hpF hpfs
        have := hcover p hpF (List.mem_cons_of_mem _ hpfs)
        rw [hcc] at this
        exact this

/-- Running the per-file outcomes again with lookups into the published
index: every file is either reused from `F` (in scan order, giving
`pass2Docs`) or skipped again; nothing is scheduled for embedding. -/
lemma outcomesList_pass2 {g ex₁ : String → Option Document}
    {ids : Nat → String} :
    ∀ {files : List FileInfo}
      {os : List (Option (Document ⊕ (String × String × Nat)))}
      {i : Nat} {embs : List (List ℚ)},
    outcomesList ex₁ files = .ok os →
    lookAgrees g ids files os i embs →
    ∃ os₂, outcomesList g files = .ok os₂ ∧
      collectOutcomes os₂ = (pass2Docs ids i os embs, []) := by
  intro files
  induction files with
  | nil =>
    intro os i embs hos hla
    obtain rfl : ([] : List (Option (Document ⊕ (String × String × Nat)))) = os :=
      Except.ok.inj hos
    exact ⟨[], rfl, rfl⟩
  | cons fi fs ih =>
    intro os i embs hos hla
    obtain ⟨o, os', ho', hos', rfl⟩ := outcomesList_cons_ok hos
    cases o with
    | some s =>
      cases s with
      | inl d =>
        obtain ⟨hg, hla'⟩ := hla
        have hfacts := fileOutcome_inl ho'
        have hog : fileOutcome g fi = .ok (some (.inl d)) :=
          fileOutcome_reuse hfacts.1 hg rfl
        obtain ⟨os₂, hos₂, hcol₂⟩ := ih hos' hla'
        refine ⟨some (.inl d) :: os₂, ?_, ?_⟩
        · rw [outcomesList, hog, hos₂]
        · simp only [collectOutcomes, hcol₂, pass2Docs]
      | inr t =>
        obtain ⟨p', c', m'⟩ := t
        cases embs with
        | nil => exact (hla : False).elim
        | cons e embs' =>
          obtain ⟨hg, hla'⟩ := hla
          have hfacts := fileOutcome_inr ho'
          have hog : fileOutcome g fi =
              .ok (some (.inl (⟨ids i, p', c', e, m'⟩ : Document))) :=
            fileOutcome_reuse hfacts.2.2.1 hg rfl
          obtain ⟨os₂, hos₂, hcol₂⟩ := ih hos' hla'
          refine ⟨some (.inl (⟨ids i, p', c', e, m'⟩ : Document)) :: os₂, ?_, ?_⟩
          · rw [outcomesList, hog, hos₂]
          · simp only [collectOutcomes, hcol₂, pass2Docs]
    | none =>
      obtain ⟨hg, hla'⟩ := hla
      obtain ⟨m, hm, hct, _⟩ := fileOutcome_skip ho'
      have hog : fileOutcome g fi = .ok none := fileOutcome_skip_mk hm hg hct
      obtain ⟨os₂, hos₂, hcol₂⟩ := ih hos' hla'
      refine ⟨none :: os₂, ?_, ?_⟩
      · rw [outcomesList, hog, hos₂]
      · simp only [collectOutcomes, hcol₂, pass2Docs]

/-- A second scan against the published index reuses exactly the published
documents (in scan order) and schedules nothing for embedding. -/
lemma get_files_second (entries : List ScanEntry) (prev : Option RagIndex)
    {R : List Document} {T : List (String × String × Nat)}
    {os : List (Option (Document ⊕ (String × String × Nat)))}
    (ids : Nat → String) (embs : List (List ℚ))
    (hos : outcomesList (existingOf prev) (dedupFiles entries []) = .ok os)
    (hcol : collectOutcomes os = (R, T))
    (hlen : embs.length = T.length)
    {F : List Document} (hF : F = R ++ embedDocs ids 0 T embs) :
    ∃ R₂, get_files_to_embed (some ⟨F⟩) entries = .ok (R₂, []) ∧ R₂.Perm F := by
  have hex₁ : ∀ p dd, existingOf prev p = some dd → dd.path = p :=
    fun p dd h => existingOf_path h
  have hpathF : F.map Document.path =
      R.map Document.path ++ T.map fun t => t.1 := by
    rw [hF, List.map_append, embedDocs_map_path hlen]
  have hFnd : (F.map Document.path).Nodup := by
    rw [hpathF]
    have := collect_paths_nodup hex₁ hos (dedupFiles_nodup entries [])
    rw [hcol] at this
    exact this
  have hla : lookAgrees (lookupDoc F) ids (dedupFiles entries []) os 0 embs := by
    refine lookAgrees_of hex₁ ids hFnd _ os 0 embs hos
      (by rw [hcol]; exact hlen) (dedupFiles_nodup entries []) ?_ ?_ ?_
    · intro d hd
      rw [hcol] at hd
      rw [hF]
      exact List.mem_append_left _ hd
    · intro d hd
      rw [hcol] at hd
      rw [hF]
      exact List.mem_append_right _ hd
    · intro p hpF _
      rw [hcol]
      rw [hpathF] at hpF
      exact List.mem_append.mp hpF
  obtain ⟨os₂, hos₂, hcol₂⟩ :=
    @outcomesList_pass2 (lookupDoc F) (existingOf prev) ids (dedupFiles entries []) os 0 embs hos hla
  refine ⟨pass2Docs ids 0 os embs, ?_, ?_⟩
  · rw [get_files_to_embed_char]
    have hgex : existingOf (some ⟨F⟩) = lookupDoc F := rfl
    rw [hgex, hos₂]
    simp [hcol₂]
  · have hp := pass2Docs_perm ids os 0 embs (by rw [hcol]; exact hlen)
    rw [hcol] at hp
    rw [hF]
    exact hp

/-- Re-running `ingest` against a state whose snapshot is the non-empty
published index republishes a permutation of it with the same count. -/
lemma ingest_second (cfg : RagConfig) (hen : cfg.enabled = true)
    (entries : List ScanEntry)
    (provider : List String → Except String (List (List ℚ)))
    (ids : Nat → String) {F : List Document} (hFne : F ≠ [])
    (st₁ : RagState) (hdisk : st₁.disk = some ⟨F⟩)
    {R₂ : List Document}
    (hscan₂ : get_files_to_embed (some ⟨F⟩) entries = .ok (R₂, []))
    (hperm : R₂.Perm F) :
    ingest cfg true true true entries provider ids st₁ =
      (.ok F.length, { disk := some ⟨R₂⟩, cache := some ⟨R₂⟩ }) := by
  have hscan' : get_files_to_embed st₁.disk entries = .ok (R₂, []) := by
    rw [hdisk]; exact hscan₂
  rw [ingest_main hen hscan']
  have hR₂ne : R₂ ≠ [] := by
    intro hc
    rw [hc] at hperm
    exact hFne hperm.nil_eq.symm
  have hR₂e : R₂.isEmpty = false := by
    cases hcc : R₂ with
    | nil => exact absurd hcc hR₂ne
    | cons x xs => rfl
  simp only [List.isEmpty_nil, hR₂e, Bool.true_and, if_false, if_true,
    Bool.false_eq_true]
  rw [hperm.length_eq]

/-- C3: running `ingest` twice with no filesystem change between the calls
(same scan results) succeeds with the same document count, and the second
snapshot and cache hold the same set of documents — identical ids, content
and embeddings (a permutation of the first pass's documents). -/
theorem c3_ingest_idempotent (cfg : RagConfig) (entries : List ScanEntry)
    (provider : List String → Except String (List (List ℚ)))
    (ids : Nat → String) (st : RagState) (n₁ : Nat) (st₁ : RagState)
    (hprov : ∀ texts embs, provider texts = .ok embs →
      embs.length = texts.length)
    (h1 : ingest cfg true true true entries provider ids st = (.ok n₁, st₁)) :
    ∃ st₂, ingest cfg true true true entries provider ids st₁ = (.ok n₁, st₂) ∧
      (docsOf st₂.disk).Perm (docsOf st₁.disk) ∧
      (docsOf st₂.cache).Perm (docsOf st₁.cache) := by
  cases hen : cfg.enabled with
  | false =>
    have h0 : ingest cfg true true true entries provider ids st = (.ok 0, st) := by
      simp [ingest, hen]
    rw [h0, Prod.mk.injEq] at h1
    have hn : n₁ = 0 := (Except.ok.inj h1.1).symm
    have hst : st = st₁ := h1.2
    refine ⟨st₁, ?_, List.Perm.refl _, List.Perm.refl _⟩
    rw [← hst, h0, hn]
  | true =>
    cases hscan : get_files_to_embed st.disk entries with
    | error e =>
      have herr : ingest cfg true true true entries provider ids st =
          (.error e, st) := by
        rw [ingest]
        simp [hen, hscan]
      rw [herr] at h1
      rw [Prod.mk.injEq] at h1
      cases h1.1
    | ok RT =>
      obtain ⟨R, T⟩ := RT
      obtain ⟨os, hos, hcol⟩ := get_files_ok_inv hscan
      rw [ingest_main hen hscan] at h1
      cases hTe : T.isEmpty with
      | true =>
        have hT : T = [] := by
          cases hcc : T with
          | nil => rfl
          | cons x xs => rw [hcc] at hTe; cases hTe
        cases hRe : R.isEmpty with
        | true =>
          have hR : R = [] := by
            cases hcc : R with
            | nil => rfl
            | cons x xs => rw [hcc] at hRe; cases hRe
          simp only [hTe, hRe, Bool.and_self, if_true] at h1
          rw [Prod.mk.injEq] at h1
          have hn : n₁ = 0 := (Except.ok.inj h1.1).symm
          have hst : st = st₁ := h1.2
          refine ⟨st₁, ?_, List.Perm.refl _, List.Perm.refl _⟩
          rw [← hst, ingest_main hen hscan]
          simp only [hTe, hRe, Bool.and_self, if_true]
          rw [hn]
        | false =>
          simp only [hTe, hRe, Bool.true_and, if_false, if_true,
            Bool.false_eq_true] at h1
          rw [Prod.mk.injEq] at h1
          have hn : n₁ = R.length := (Except.ok.inj h1.1).symm
          have hst : st₁ = { disk := some ⟨R⟩, cache := some ⟨R⟩ } := h1.2.symm
          have hRne : R ≠ [] := by
            intro hc
            rw [hc] at hRe
            cases hRe
          obtain ⟨R₂, hscan₂, hperm⟩ := get_files_second entries st.disk ids []
            hos (hT ▸ hcol) rfl (F := R) (by simp [embedDocs])
          have hsec := ingest_second cfg hen entries provider ids hRne
            st₁ (by rw [hst]) hscan₂ hperm
          refine ⟨{ disk := some ⟨R₂⟩, cache := some ⟨R₂⟩ }, ?_, ?_, ?_⟩
          · rw [hsec, hn]
          · rw [hst]
            simpa [docsOf] using hperm
          · rw [hst]
            simpa [docsOf] using hperm
      | false =>
        simp only [hTe, Bool.false_and, if_false, Bool.false_eq_true] at h1
        cases hpr : provider (T.map fun t => t.2.1) with
        | error e =>
          rw [hpr] at h1
          rw [Prod.mk.injEq] at h1
          cases h1.1
        | ok embs =>
          rw [hpr] at h1
          rw [Prod.mk.injEq] at h1
          have hlen : embs.length = T.length := by
            simpa using hprov _ _ hpr
          have hn : n₁ = (R ++ embedDocs ids 0 T embs).length :=
            (Except.ok.inj h1.1).symm
          have hst : st₁ =
              { disk := some ⟨R ++ embedDocs ids 0 T embs⟩,
                cache := some ⟨R ++ embedDocs ids 0 T embs⟩ } := h1.2.symm
          have hTne : T ≠ [] := by
            intro hc
            rw [hc] at hTe
            cases hTe
          have hFne : R ++ embedDocs ids 0 T embs ≠ [] := by
            intro hc
            have hl : R.length + T.length = 0 := by
              have hc' := congrArg List.length hc
              simpa [embedDocs_length hlen] using hc'
            exact hTne (List.length_eq_zero.mp (by omega))
          obtain ⟨R₂, hscan₂, hperm⟩ := get_files_second entries st.disk ids
            embs hos hcol hlen (F := R ++ embedDocs ids 0 T embs) rfl
          have hsec := ingest_second cfg hen entries provider ids hFne
            st₁ (by rw [hst]) hscan₂ hperm
          refine ⟨{ disk := some ⟨R₂⟩, cache := some ⟨R₂⟩ }, ?_, ?_, ?_⟩
          · rw [hsec, hn]
          · rw [hst]
            simpa [docsOf] using hperm
          · rw [hst]
            simpa [docsOf] using hperm

/-- Witness for C3: one new file, embedded on the first pass and reused on
the second. -/
theorem c3_ingest_idempotent_witness :
    ∃ st₂, ingest ⟨true, 3, 0⟩ true true true
        [.file ⟨"a.txt", some 1, some "hi"⟩]
        (fun texts => .ok (texts.map fun _ => ([1] : List ℚ)))
        (fun _ => "u")
        ⟨some ⟨[⟨"u", "a.txt", "hi", [1], 1⟩]⟩,
          some ⟨[⟨"u", "a.txt", "hi", [1], 1⟩]⟩⟩ = (.ok 1, st₂) ∧
      (docsOf st₂.disk).Perm
        (docsOf (some ⟨[⟨"u", "a.txt", "hi", [1], 1⟩]⟩)) ∧
      (docsOf st₂.cache).Perm
        (docsOf (some ⟨[⟨"u", "a.txt", "hi", [1], 1⟩]⟩)) :=
  c3_ingest_idempotent ⟨true, 3, 0⟩
    [.file ⟨"a.txt", some 1, some "hi"⟩]
    (fun texts => .ok (texts.map fun _ => ([1] : List ℚ)))
    (fun _ => "u") ⟨none, none⟩ 1
    ⟨some ⟨[⟨"u", "a.txt", "hi", [1], 1⟩]⟩,
      some ⟨[⟨"u", "a.txt", "hi", [1], 1⟩]⟩⟩
    (by
      intro texts embs h
      rw [← Except.ok.inj h]
      simp)
    rfl

end Rag
